import Mathlib

/-!
Verification of the `svp` lattice-sieving library (Gauss Sieve for the
Shortest Vector Problem).

Shallow embedding conventions, used consistently below:

* Machine integers (`i64`) and arbitrary-precision integers (`rug::Integer`)
  are both modelled as `ℤ`; machine arithmetic is modelled without wrap-around.
* `f64` and `rug::Float` are modelled as exact rationals `ℚ`.
* A Rust function that can `panic!` (a failed `assert!`, an `unwrap()` of
  `None`, an out-of-bounds index) is modelled as returning `Option`, with
  `none` for the panic.
* Rust `Vec` push/pop act on the tail of the list in the model, exactly as in
  the source.
* `while` loops whose termination is not structural take an explicit fuel
  argument; `none` is returned when the fuel runs out, so every theorem about
  a run is conditioned on the run actually returning.
* The Klein sampler's random draws are out of scope (the spec treats the RNG
  as an external collaborator); the sieve model consumes an explicit stream
  of sampler outputs instead.
-/

namespace SVP

/-- Model of `svp::Vector<T>` (src/algebra/vector.rs): an n-vector `vec`
together with an optional cached squared norm `norm`. -/
structure Vec (T : Type) where
  vec : List T
  norm : Option T
deriving DecidableEq, Repr

/-- Model of `svp::Lattice<T>` (src/algebra/lattice.rs): an ordered sequence
of basis vectors. -/
structure Lattice (T : Type) where
  basis : List (Vec T)
deriving DecidableEq, Repr

/-- Sum-of-products core of the inner product `&Vector<i64> * &Vector<i64>`
(and its `Integer` twin), without the length assertions. -/
def dotZ (u v : List ℤ) : ℤ :=
  (List.zipWith (fun a b => a * b) u v).sum

/-- Precondition of every inner product in the source:
`assert!(!self.vec.is_empty() && self.vec.len() == _rhs.vec.len())`. -/
def dotOk (u v : List ℤ) : Prop :=
  u ≠ [] ∧ u.length = v.length

instance (u v : List ℤ) : Decidable (dotOk u v) := by
  unfold dotOk; infer_instance

/-- Inner product with the source's assertions: `none` models the panic. -/
def dotP (u v : List ℤ) : Option ℤ :=
  if dotOk u v then some (dotZ u v) else none

/-- Sum-of-products core of the rational inner products (`&Vector<f64>` and
`&Vector<Float>`, including the mixed integer-by-real products). -/
def dotQ (u v : List ℚ) : ℚ :=
  (List.zipWith (fun a b => a * b) u v).sum

/-- Assertion guard of the rational inner products. -/
def dotOkQ (u v : List ℚ) : Prop :=
  u ≠ [] ∧ u.length = v.length

instance (u v : List ℚ) : Decidable (dotOkQ u v) := by
  unfold dotOkQ; infer_instance

/-- Rational inner product with the source's assertions. -/
def dotPQ (u v : List ℚ) : Option ℚ :=
  if dotOkQ u v then some (dotQ u v) else none

/-- Round-to-nearest integer division, ties away from zero.  This is
`rug::Integer::div_rem_round` (used by `GaussReduce<Integer>`) and also the
exact-arithmetic reading of `(ip as f64 / norm as f64).round() as i64` (used
by `GaussReduce<i64>`; `f64::round` also rounds ties away from zero). -/
def divRound (a b : ℤ) : ℤ :=
  if 0 ≤ a then (2 * a + b).fdiv (2 * b) else -((2 * (-a) + b).fdiv (2 * b))

/-- Rust `Option<T>` comparison `a > b` (derived `PartialOrd`: `None` is the
least element), used by `self.l[i].norm > v.norm` in the sieve. -/
def optGt : Option ℤ → Option ℤ → Bool
  | some a, some b => decide (b < a)
  | some _, none => true
  | none, _ => false

/-- Rust `Option<T>` comparison `a < b`, used by `v.norm < min_norm`. -/
def optLt : Option ℤ → Option ℤ → Bool
  | some a, some b => decide (a < b)
  | none, some _ => true
  | _, none => false

/-- Total order on cached norms induced by `partial_cmp().unwrap()` in the
sieve's final `sort_by` (with `None` least, as in Rust's `Option` ordering). -/
def normLe (a b : Vec ℤ) : Prop :=
  match a.norm, b.norm with
  | none, _ => True
  | some _, none => False
  | some x, some y => x ≤ y

instance (a b : Vec ℤ) : Decidable (normLe a b) := by
  unfold normLe
  rcases a.norm with _ | x <;> rcases b.norm with _ | y <;> infer_instance

instance : IsTotal (Vec ℤ) normLe where
  total a b := by
    unfold normLe
    rcases a.norm with _ | x <;> rcases b.norm with _ | y <;> simp <;> omega

instance : IsTrans (Vec ℤ) normLe where
  trans a b c := by
    unfold normLe
    rcases a.norm with _ | x <;> rcases b.norm with _ | y <;>
      rcases c.norm with _ | z <;> simp <;> omega

/-- Model of `GaussReduce::reduce` (src/algebra/vector.rs, both the `i64` and
the `Integer` instance): with `ip = dot(self, v)`, if `v.norm < |2·ip|` then
subtract `divRound ip v.norm · v` from `self` component-wise, refresh
`self.norm`, and return `true`; otherwise return `false` and leave `self`
unchanged.  `none` models the panics (length assertion in `dot`, `unwrap`
of an absent `v.norm`). -/
def gaussReduce (self v : Vec ℤ) : Option (Vec ℤ × Bool) :=
  match dotP self.vec v.vec with
  | none => none
  | some ip =>
    match v.norm with
    | none => none
    | some nv =>
      if nv < |2 * ip| then
        let q := divRound ip nv
        let w := List.zipWith (fun a b => a - q * b) self.vec v.vec
        match dotP w w with
        | none => none
        | some nw => some (⟨w, some nw⟩, true)
      else
        some (self, false)

/-- Row-by-row inner products of the basis with a coefficient vector: the
loop body `res.vec[i] = &self.basis[i] * _rhs` of the basis product. -/
def rowDots : List (Vec ℤ) → Vec ℤ → Option (List ℤ)
  | [], _ => some []
  | u :: rest, c =>
    match dotP u.vec c.vec with
    | none => none
    | some x =>
      match rowDots rest c with
      | none => none
      | some xs => some (x :: xs)

/-- Model of `impl Mul<&Vector<i64>> for &Lattice<i64>` and
`impl Mul<&Vector<Integer>> for &Lattice<Integer>`
(src/algebra/lattice.rs): `assert_eq!(self.basis.len(), _rhs.vec.len())`,
then `res.vec[i] = &self.basis[i] * _rhs` for every row, then
`res.norm = Some(&res * &res)`. -/
def latMul (b : Lattice ℤ) (c : Vec ℤ) : Option (Vec ℤ) :=
  if b.basis.length = c.vec.length then
    match rowDots b.basis c with
    | none => none
    | some xs =>
      match dotP xs xs with
      | none => none
      | some n => some ⟨xs, some n⟩
  else none

/-- Truncation toward zero: the semantics of Rust's `as i64` cast from `f64`
in `impl Mul<&Vector<f64>> for &Lattice<i64>`. -/
def truncQ (x : ℚ) : ℤ :=
  if 0 ≤ x then ⌊x⌋ else ⌈x⌉

/-- Round to the nearest integer with ties to even: the semantics of
`rug::Float::to_integer` (MPFR round-to-nearest) in
`impl Mul<&Vector<Float>> for &Lattice<Integer>`. -/
def rneQ (x : ℚ) : ℤ :=
  if x - ⌊x⌋ < 1/2 then ⌊x⌋
  else if 1/2 < x - ⌊x⌋ then ⌊x⌋ + 1
  else if ⌊x⌋ % 2 = 0 then ⌊x⌋ else ⌊x⌋ + 1

/-- Element-wise cast of an integer vector to the real type. -/
def castQ (u : List ℤ) : List ℚ :=
  u.map fun a => (a : ℚ)

/-- Row-by-row mixed inner products `&self.basis[i] * _rhs` of an integer
basis with a real coefficient vector (`i64`-by-`f64` / `Integer`-by-`Float`
products of src/algebra/vector.rs, each with its assertions). -/
def rowDotsQ : List (Vec ℤ) → Vec ℚ → Option (List ℚ)
  | [], _ => some []
  | u :: rest, c =>
    match dotPQ (castQ u.vec) c.vec with
    | none => none
    | some x =>
      match rowDotsQ rest c with
      | none => none
      | some xs => some (x :: xs)

/-- Model of `impl Mul<&Vector<f64>> for &Lattice<i64>`: mixed row products,
each coordinate converted by `as i64` (truncation toward zero), then the
integer norm is cached. -/
def latMulTrunc (b : Lattice ℤ) (c : Vec ℚ) : Option (Vec ℤ) :=
  if b.basis.length = c.vec.length then
    match rowDotsQ b.basis c with
    | none => none
    | some xs =>
      let ys := xs.map truncQ
      match dotP ys ys with
      | none => none
      | some n => some ⟨ys, some n⟩
  else none

/-- Model of `impl Mul<&Vector<Float>> for &Lattice<Integer>`: mixed row
products, each coordinate converted by `Float::to_integer` (round to
nearest, ties to even), then the integer norm is cached. -/
def latMulRne (b : Lattice ℤ) (c : Vec ℚ) : Option (Vec ℤ) :=
  if b.basis.length = c.vec.length then
    match rowDotsQ b.basis c with
    | none => none
    | some xs =>
      let ys := xs.map rneQ
      match dotP ys ys with
      | none => none
      | some n => some ⟨ys, some n⟩
  else none

/-- Inner `k` loop of `gso`: `gs[i].vec[k] -= mu[i][j] * gs[j].vec[k]` for
`k in 0..self.basis.len()`.  Note the bound `nb` is the NUMBER of basis
vectors, not their dimension; coordinates `k ≥ nb` are left untouched, and
an index out of bounds (dimension `< nb`) panics. -/
def updateK (v gj : List ℚ) (mu : ℚ) (nb : ℕ) : Option (List ℚ) :=
  if nb ≤ v.length ∧ nb ≤ gj.length then
    some (List.zipWith (fun a b => a - mu * b) (v.take nb) (gj.take nb) ++ v.drop nb)
  else none

/-- Inner `j` loop of `gso` at row `i`: for each finalized pair
`(basis[j], gs[j])` in order, compute `mu[i][j] = ⟨basis[j], gs[i]⟩ /
gs[j].norm` and subtract.  `j < mrows` guards the write `mu[i][j] = …` into
the scratch matrix whose rows have length `mrows = basis[0].vec.len()`. -/
def projLoop (nb mrows : ℕ) : List (Vec ℤ × Vec ℚ) → ℕ → List ℚ → Option (List ℚ)
  | [], _, v => some v
  | (bj, gj) :: rest, j, v =>
    if j < mrows then
      match dotPQ (castQ bj.vec) v, gj.norm with
      | some ip, some nj =>
        match updateK v gj.vec (ip / nj) nb with
        | some v' => projLoop nb mrows rest (j + 1) v'
        | none => none
      | _, _ => none
    else none

/-- Outer `i` loop of `gso`, index-ascending; `done` holds the pairs
`(basis[j], finalized gs[j])` for `j < i`.  Each row starts from the
element-wise cast of `basis[i]` and ends with its norm refreshed.  (The
initial `norm: basis[i].norm.map(cast)` of the source is dead: it is
overwritten before any read.) -/
def gsoAux (nb mrows : ℕ) : List (Vec ℤ) → List (Vec ℤ × Vec ℚ) → Option (List (Vec ℚ))
  | [], _ => some []
  | bi :: rest, done =>
    match projLoop nb mrows done 0 (castQ bi.vec) with
    | none => none
    | some v' =>
      match dotPQ v' v' with
      | none => none
      | some n =>
        match gsoAux nb mrows rest (done ++ [(bi, ⟨v', some n⟩)]) with
        | none => none
        | some gs => some (⟨v', some n⟩ :: gs)

/-- Model of `GSO::gso` (src/algebra/lattice.rs, both regimes): classical
Gram-Schmidt with the inner coordinate loop bounded by the NUMBER of basis
vectors (`self.basis.len()`), as written in the source.  An empty basis
panics on `self.basis[0]`. -/
def gso (b : Lattice ℤ) : Option (List (Vec ℚ)) :=
  match b.basis with
  | [] => none
  | b0 :: _ => gsoAux b.basis.length b0.vec.length b.basis []

/-- Modelled from the spec's words for comparison with `gso`: identical
classical Gram-Schmidt pass, but the subtraction `gs[i] -= mu[i][j]*gs[j]`
updates EVERY coordinate of `gs[i]` ("every coordinate of gs[i] updated"). -/
def gsoSpecStep : List (Vec ℤ × Vec ℚ) → List ℚ → Option (List ℚ)
  | [], v => some v
  | (bj, gj) :: rest, v =>
    match dotPQ (castQ bj.vec) v, gj.norm with
    | some ip, some nj =>
      gsoSpecStep rest (List.zipWith (fun a b => a - (ip / nj) * b) v gj.vec)
    | _, _ => none

/-- Outer loop of the spec-side Gram-Schmidt. -/
def gsoSpecAux : List (Vec ℤ) → List (Vec ℤ × Vec ℚ) → Option (List (Vec ℚ))
  | [], _ => some []
  | bi :: rest, done =>
    match gsoSpecStep done (castQ bi.vec) with
    | none => none
    | some v' =>
      match dotPQ v' v' with
      | none => none
      | some n =>
        match gsoSpecAux rest (done ++ [(bi, ⟨v', some n⟩)]) with
        | none => none
        | some gs => some (⟨v', some n⟩ :: gs)

/-- Spec-side Gram-Schmidt entry point. -/
def gsoSpec (b : Lattice ℤ) : Option (List (Vec ℚ)) :=
  gsoSpecAux b.basis []

/-- Model of `svp::KleinSampler<T>` (src/sample/klein.rs). -/
structure KleinSampler where
  gs : List (Vec ℚ)
  t : ℚ
  s2 : List ℚ
deriving DecidableEq, Repr

/-- Maximum-norm scan of `KleinSampler::init`:
`for g in gs { if g.norm.unwrap() > max_norm { max_norm = … } }`. -/
def maxNormLoop : List (Vec ℚ) → ℚ → Option ℚ
  | [], acc => some acc
  | g :: rest, acc =>
    match g.norm with
    | none => none
    | some n => maxNormLoop rest (if acc < n then n else acc)

/-- Variance map of `KleinSampler::init`:
`s2 = gs.iter().map(|i| s / i.norm.unwrap())`. -/
def s2Map : List (Vec ℚ) → ℚ → Option (List ℚ)
  | [], _ => some []
  | g :: rest, s =>
    match g.norm with
    | none => none
    | some n =>
      match s2Map rest s with
      | none => none
      | some xs => some (s / n :: xs)

/-- Model of `KleinSampler::init(gs, t)`: start the maximum at
`gs[0].norm.unwrap()` (panicking when `gs` is empty or a norm is absent),
scan all of `gs`, set `s = max_norm * t`, and store `gs`, `t` and
`s2[i] = s / gs[i].norm`.  It draws no randomness: the model is a pure
function of `gs` and `t`. -/
def KleinSampler.init (gs : List (Vec ℚ)) (t : ℚ) : Option KleinSampler :=
  match gs with
  | [] => none
  | g0 :: _ =>
    match g0.norm with
    | none => none
    | some n0 =>
      match maxNormLoop gs n0 with
      | none => none
      | some mx =>
        match s2Map gs (mx * t) with
        | none => none
        | some s2 => some ⟨gs, t, s2⟩

/-- Model of `svp::GaussSieve<T, U>` (src/sieve/gauss_sieve.rs). -/
structure GaussSieve where
  b : Lattice ℤ
  k : KleinSampler
  l : List (Vec ℤ)
  s : List (Vec ℤ)
deriving DecidableEq, Repr

/-- Model of the `gsieve!` constructor: `s` is a plain clone of the basis
(norm fields copied exactly as given), `k` is the Klein sampler built from
the lattice's GSO, `b` is the lattice, and `l` starts empty. -/
def gsieve (lat : Lattice ℤ) (t : ℚ) : Option GaussSieve :=
  match gso lat with
  | none => none
  | some gs =>
    match KleinSampler.init gs t with
    | none => none
    | some k => some ⟨lat, k, [], lat.basis⟩

/-- One pass of the scan in `ListReduce::reduce` (`lr_impl!`):
`for i in 0..self.l.len() { if self.l[i].norm > v.norm { index = i; break; }
if v.reduce(&self.l[i]) { reduced = true; } }`.
Arguments: remaining list, current position `i`, current `v`, the `index`
variable (kept from earlier passes when no break occurs), the `reduced`
flag accumulated so far.  Returns the updated `(v, index, reduced)`. -/
def scanPass : List (Vec ℤ) → ℕ → Vec ℤ → ℕ → Bool → Option (Vec ℤ × ℕ × Bool)
  | [], _, v, idx, red => some (v, idx, red)
  | u :: rest, i, v, idx, red =>
    if optGt u.norm v.norm then some (v, i, red)
    else
      match gaussReduce v u with
      | none => none
      | some (v', fired) => scanPass rest (i + 1) v' idx (red || fired)

/-- The `while reduced` loop around `scanPass`, with fuel. -/
def scanLoop : ℕ → List (Vec ℤ) → Vec ℤ → ℕ → Option (Vec ℤ × ℕ)
  | 0, _, _, _ => none
  | fuel + 1, l, v, idx =>
    match scanPass l 0 v idx false with
    | none => none
    | some (v', idx', red) =>
      if red then scanLoop fuel l v' idx' else some (v', idx')

/-- Tail re-check of `ListReduce::reduce`: starting after the insertion
position, `if self.l[index].reduce(&v) { s.push(clone); l.remove(index) }
else { index += 1 }`.  Returns the kept suffix and the (mutated) elements
moved to the stack, in scan order. -/
def tailReduce : List (Vec ℤ) → Vec ℤ → Option (List (Vec ℤ) × List (Vec ℤ))
  | [], _ => some ([], [])
  | u :: rest, v =>
    match gaussReduce u v with
    | none => none
    | some (u', fired) =>
      match tailReduce rest v with
      | none => none
      | some (kept, moved) =>
        if fired then some (kept, u' :: moved) else some (u :: kept, moved)

/-- Model of `ListReduce::reduce` (`lr_impl!`, both regimes): run the scan
loop to quiescence, then — unless the reduced `v` has norm 0 — insert `v`
at `index` and re-check all successors, moving any that reduce onto the
pending stack `s`.  Returns the new list, the new stack, and the final `v`. -/
def listReduce (fuel : ℕ) (l s : List (Vec ℤ)) (v : Vec ℤ) :
    Option (List (Vec ℤ) × List (Vec ℤ) × Vec ℤ) :=
  match scanLoop fuel l v 0 with
  | none => none
  | some (v', idx) =>
    match v'.norm with
    | none => none
    | some nv =>
      if nv ≠ 0 then
        match tailReduce (l.drop idx) v' with
        | none => none
        | some (kept, moved) =>
          some (l.take idx ++ v' :: kept, s ++ moved, v')
      else some (l, s, v')

/-- Exit materialization `res[i] = &self.b * i` over the final list. -/
def resolveAll (b : Lattice ℤ) : List (Vec ℤ) → Option (List (Vec ℤ))
  | [] => some []
  | u :: rest =>
    match latMul b u with
    | none => none
    | some r =>
      match resolveAll b rest with
      | none => none
      | some rs => some (r :: rs)

/-- Candidate selection at the top of the sieve loop: pop the pending stack
(`Vec::pop` takes the LAST element) when nonempty, otherwise draw from the
sampler, modelled as consuming the head of `stream` (`none` when the
modelled stream is exhausted). -/
def popNext (stream s : List (Vec ℤ)) :
    Option (Vec ℤ × List (Vec ℤ) × List (Vec ℤ)) :=
  match s.getLast? with
  | some v => some (v, s.dropLast, stream)
  | none =>
    match stream with
    | [] => none
    | v :: rest => some (v, [], rest)

/-- Main loop of `Sieve::sieve` (`sieve_impl!`).  The collision counter `c`
and the running maximum list size `ml` are modelled as naturals and the
loop guard `c < ml * 0.1 + 200.0` as the exact inequality `10*c < ml + 2000`
(the two agree whenever the `f64` expression is not hit exactly, which is
the case on every run evaluated below). -/
def sieveLoop (b : Lattice ℤ) :
    ℕ → List (Vec ℤ) → List (Vec ℤ) → List (Vec ℤ) → ℕ → ℕ → Option ℤ →
    Option (List (Vec ℤ))
  | 0, _, _, _, _, _, _ => none
  | fuel + 1, stream, l, s, c, ml, mn =>
    if 10 * c < ml + 2000 then
      match popNext stream s with
      | none => none
      | some (v, s₁, stream₁) =>
        match listReduce (fuel + 1) l s₁ v with
        | none => none
        | some (l₁, s₂, v₁) =>
          match v₁.norm with
          | none => none
          | some nv =>
            let c₁ := if nv = 0 then c + 1 else c
            let mn₁ := if nv ≠ 0 && optLt v₁.norm mn then v₁.norm else mn
            let ml₁ := if ml < l₁.length then l₁.length else ml
            sieveLoop b fuel stream₁ l₁ s₂ c₁ ml₁ mn₁
    else
      match resolveAll b l with
      | none => none
      | some res => some (List.insertionSort normLe res)

/-- Model of `Sieve::sieve` started from the state the `gsieve!` constructor
builds: `l` empty, `s` a clone of the basis, `c = 0`, `ml = len(l) = 0`,
`min_norm = basis[0].norm` (panicking when the basis is empty).  `stream`
is the sequence of vectors the Klein sampler would return. -/
def sieve (b : Lattice ℤ) (stream : List (Vec ℤ)) (fuel : ℕ) :
    Option (List (Vec ℤ)) :=
  match b.basis with
  | [] => none
  | b0 :: _ => sieveLoop b fuel stream [] b.basis 0 0 b0.norm

/-! Basic facts about the integer inner product. -/

theorem dotZ_cons (a b : ℤ) (u v : List ℤ) :
    dotZ (a :: u) (b :: v) = a * b + dotZ u v := by
  simp [dotZ]

theorem dotZ_self_nonneg (u : List ℤ) : 0 ≤ dotZ u u := by
  induction u with
  | nil => simp [dotZ]
  | cons a u ih =>
    rw [dotZ_cons]
    exact add_nonneg (mul_self_nonneg a) ih

theorem dotZ_self_eq_zero {u : List ℤ} (h : dotZ u u = 0) : ∀ a ∈ u, a = 0 := by
  induction u with
  | nil => simp
  | cons a u ih =>
    rw [dotZ_cons] at h
    have ha : a * a = 0 ∧ dotZ u u = 0 := by
      constructor <;>
        nlinarith [mul_self_nonneg a, dotZ_self_nonneg u]
    intro x hx
    rw [List.mem_cons] at hx
    rcases hx with hx | hx
    · rw [hx]; exact mul_self_eq_zero.mp ha.1
    · exact ih ha.2 x hx

theorem dotZ_right_zero {u v : List ℤ} (h : ∀ b ∈ v, b = 0) : dotZ u v = 0 := by
  induction v generalizing u with
  | nil => cases u <;> simp [dotZ]
  | cons b v ih =>
    cases u with
    | nil => simp [dotZ]
    | cons a u =>
      rw [dotZ_cons, h b (by simp), ih fun x hx => h x (by simp [hx])]
      ring

/-! Characterization of `divRound` as a round-to-nearest division. -/

theorem fdiv_bounds (n b : ℤ) (hb : 0 < b) :
    ((n.fdiv b : ℤ) : ℚ) ≤ (n : ℚ) / (b : ℚ) ∧
      (n : ℚ) / (b : ℚ) < ((n.fdiv b : ℤ) : ℚ) + 1 := by
  have h0 : b * n.fdiv b + n.fmod b = n := Int.fdiv_add_fmod n b
  have h1 : 0 ≤ n.fmod b := Int.fmod_nonneg' n hb
  have h2 : n.fmod b < b := Int.fmod_lt_of_pos n hb
  have hbq : (0 : ℚ) < (b : ℚ) := by exact_mod_cast hb
  have key : (n : ℚ) = (b : ℚ) * ((n.fdiv b : ℤ) : ℚ) + ((n.fmod b : ℤ) : ℚ) := by
    exact_mod_cast h0.symm
  have h1q : (0 : ℚ) ≤ ((n.fmod b : ℤ) : ℚ) := by exact_mod_cast h1
  have h2q : ((n.fmod b : ℤ) : ℚ) < (b : ℚ) := by exact_mod_cast h2
  constructor
  · rw [le_div_iff₀ hbq]
    nlinarith
  · rw [div_lt_iff₀ hbq]
    nlinarith

theorem divRound_char (a b : ℤ) (hb : 0 < b) :
    |(divRound a b : ℚ) - (a : ℚ) / (b : ℚ)| ≤ 1 / 2 := by
  have hb2 : (0 : ℤ) < 2 * b := by omega
  have hbq : ((b : ℚ)) ≠ 0 := by
    have : (0 : ℚ) < (b : ℚ) := by exact_mod_cast hb
    exact ne_of_gt this
  unfold divRound
  rcases le_or_lt 0 a with ha | ha
  · rw [if_pos ha]
    obtain ⟨h1, h2⟩ := fdiv_bounds (2 * a + b) (2 * b) hb2
    have key : (((2 * a + b : ℤ)) : ℚ) / (((2 * b : ℤ)) : ℚ) = (a : ℚ) / (b : ℚ) + 1 / 2 := by
      push_cast
      field_simp
      ring
    rw [key] at h1 h2
    rw [abs_le]
    constructor <;> linarith
  · rw [if_neg (by omega)]
    obtain ⟨h1, h2⟩ := fdiv_bounds (2 * (-a) + b) (2 * b) hb2
    have key : (((2 * (-a) + b : ℤ)) : ℚ) / (((2 * b : ℤ)) : ℚ) = -((a : ℚ) / (b : ℚ)) + 1 / 2 := by
      push_cast
      field_simp
      ring
    rw [key] at h1 h2
    rw [abs_le]
    push_cast
    constructor <;> linarith

/-! Facts about the basis-coefficient product. -/

theorem rowDots_length {bs : List (Vec ℤ)} {c : Vec ℤ} {xs : List ℤ}
    (h : rowDots bs c = some xs) : xs.length = bs.length := by
  induction bs generalizing xs with
  | nil => simp [rowDots] at h; simp [← h]
  | cons u rest ih =>
    unfold rowDots at h
    cases hd : dotP u.vec c.vec with
    | none => rw [hd] at h; exact absurd h (by simp)
    | some x =>
      rw [hd] at h
      cases hr : rowDots rest c with
      | none => rw [hr] at h; exact absurd h (by simp)
      | some ys =>
        rw [hr] at h
        simp only [Option.some.injEq] at h
        subst h
        simp [ih hr]

theorem rowDots_get {bs : List (Vec ℤ)} {c : Vec ℤ} {xs : List ℤ}
    (h : rowDots bs c = some xs) :
    ∀ i (h1 : i < xs.length) (h2 : i < bs.length),
      xs.get ⟨i, h1⟩ = dotZ (bs.get ⟨i, h2⟩).vec c.vec := by
  induction bs generalizing xs with
  | nil => intro i h1 h2; simp at h2
  | cons u rest ih =>
    unfold rowDots at h
    cases hd : dotP u.vec c.vec with
    | none => rw [hd] at h; exact absurd h (by simp)
    | some x =>
      rw [hd] at h
      cases hr : rowDots rest c with
      | none => rw [hr] at h; exact absurd h (by simp)
      | some ys =>
        rw [hr] at h
        simp only [Option.some.injEq] at h
        subst h
        intro i h1 h2
        cases i with
        | zero =>
          have : dotOk u.vec c.vec := by
            by_contra hno
            simp [dotP, hno] at hd
          simp [dotP, this] at hd
          simpa using hd.symm
        | succ j =>
          simpa using ih hr j (by simpa using h1) (by simpa using h2)

theorem rowDots_none {bs : List (Vec ℤ)} {c : Vec ℤ} {u : Vec ℤ}
    (hu : u ∈ bs) (hbad : ¬ dotOk u.vec c.vec) : rowDots bs c = none := by
  induction bs with
  | nil => simp at hu
  | cons w rest ih =>
    unfold rowDots
    cases hd : dotP w.vec c.vec with
    | none => rfl
    | some x =>
      have hw : dotOk w.vec c.vec := by
        by_contra hno
        simp [dotP, hno] at hd
      rw [List.mem_cons] at hu
      rcases hu with hu | hu
      · exact absurd (hu ▸ hw) hbad
      · rw [ih hu]

theorem latMul_some_iff {b : Lattice ℤ} {c : Vec ℤ} {r : Vec ℤ} :
    latMul b c = some r ↔
      b.basis.length = c.vec.length ∧
      ∃ xs n, rowDots b.basis c = some xs ∧ dotP xs xs = some n ∧
        r = ⟨xs, some n⟩ := by
  unfold latMul
  constructor
  · intro h
    split at h
    · rename_i hlen
      refine ⟨hlen, ?_⟩
      cases hr : rowDots b.basis c with
      | none => rw [hr] at h; exact absurd h (by simp)
      | some xs =>
        rw [hr] at h
        cases hn : dotP xs xs with
        | none => simp only [hn] at h; exact absurd h (by simp)
        | some n =>
          simp only [hn, Option.some.injEq] at h
          exact ⟨xs, n, rfl, hn, h.symm⟩
    · exact absurd h (by simp)
  · rintro ⟨hlen, xs, n, hr, hn, hrr⟩
    rw [if_pos hlen, hr]
    dsimp only
    rw [hn]
    dsimp only
    rw [hrr]

/-- Spec-side coordinate formula of the basis-coefficient product, taken
from the spec's words: `(B·c)[i] = Σ_j B[j][i] · c[j]` ("c is read as
basis-column coefficients"). -/
def specMulCoord (b : Lattice ℤ) (c : Vec ℤ) (i : ℕ) : ℤ :=
  (List.zipWith (fun (u : Vec ℤ) (cj : ℤ) => u.vec.getD i 0 * cj) b.basis c.vec).sum

/-- C1, counterexample.  For the basis `B = [[1,1],[0,1]]` and coefficients
`c = [1,0]`, the implemented product returns `[1,0]` (each basis ROW dotted
with `c`), while the spec's formula `r[i] = Σ_j B[j][i]·c[j]` gives `r[1] =
1`: the claim is false as stated. -/
theorem basis_product_column_counterexample :
    latMul ⟨[⟨[1, 1], none⟩, ⟨[0, 1], none⟩]⟩ ⟨[1, 0], none⟩ =
      some ⟨[1, 0], some 1⟩ ∧
    specMulCoord ⟨[⟨[1, 1], none⟩, ⟨[0, 1], none⟩]⟩ ⟨[1, 0], none⟩ 1 = 1 ∧
    ([1, 0] : List ℤ).getD 1 0 ≠ 1 := by
  refine ⟨by decide, by decide, by decide⟩

/-- C1, amended.  For every basis `B` and coefficient vector `c` on which
the product `B·c` returns (all assertions pass), the result `r` satisfies
`r[i] = Σ_j B[i][j]·c[j] = dot(B[i], c)` — each basis VECTOR dotted with
`c`, which is the transpose of the claimed formula — `r` has length `m`
(the number of basis vectors), and `r.norm = dot(r, r)`. -/
theorem basis_product_rows (b : Lattice ℤ) (c : Vec ℤ) (r : Vec ℤ)
    (h : latMul b c = some r) :
    r.vec.length = b.basis.length ∧
    (∀ i (h1 : i < r.vec.length) (h2 : i < b.basis.length),
      r.vec.get ⟨i, h1⟩ = dotZ (b.basis.get ⟨i, h2⟩).vec c.vec) ∧
    r.norm = some (dotZ r.vec r.vec) := by
  obtain ⟨hlen, xs, n, hr, hn, hrr⟩ := latMul_some_iff.mp h
  subst hrr
  have hok : dotOk xs xs := by
    by_contra hno
    simp [dotP, hno] at hn
  simp only [dotP, if_pos hok, Option.some.injEq] at hn
  exact ⟨rowDots_length hr, fun i h1 h2 => rowDots_get hr i h1 h2, by simp [← hn]⟩

/-- C1, witness for the amended theorem at `B = [[1,1],[0,1]]`, `c = [1,0]`. -/
theorem basis_product_rows_witness :
    ([1, 0] : List ℤ).length = 2 ∧
    ((Vec.mk [1, 0] (some 1) : Vec ℤ).vec.length =
      (Lattice.mk [⟨[1, 1], none⟩, ⟨[0, 1], none⟩] : Lattice ℤ).basis.length ∧
    (∀ i (h1 : i < (Vec.mk [1, 0] (some 1) : Vec ℤ).vec.length)
        (h2 : i < (Lattice.mk [⟨[1, 1], none⟩, ⟨[0, 1], none⟩] : Lattice ℤ).basis.length),
      (Vec.mk [1, 0] (some 1) : Vec ℤ).vec.get ⟨i, h1⟩ =
        dotZ ((Lattice.mk [⟨[1, 1], none⟩, ⟨[0, 1], none⟩] : Lattice ℤ).basis.get ⟨i, h2⟩).vec
          (Vec.mk [1, 0] none : Vec ℤ).vec) ∧
    (Vec.mk [1, 0] (some 1) : Vec ℤ).norm =
      some (dotZ (Vec.mk [1, 0] (some 1) : Vec ℤ).vec (Vec.mk [1, 0] (some 1) : Vec ℤ).vec)) :=
  ⟨by decide,
    basis_product_rows ⟨[⟨[1, 1], none⟩, ⟨[0, 1], none⟩]⟩ ⟨[1, 0], none⟩
      ⟨[1, 0], some 1⟩ (by decide)⟩

/-- C10.  The basis-coefficient product asserts `basis.len() == c.len()` and,
row by row, `basis[i].len() == c.len()` (with nonemptiness); hence it panics
(returns `none`) for every basis containing a vector whose dimension differs
from the number of basis vectors, whatever `c` is; and whenever it returns,
the result has the coefficient length `m`. -/
theorem basis_product_shape (b : Lattice ℤ) (c : Vec ℤ) :
    ((∃ u ∈ b.basis, u.vec.length ≠ b.basis.length) → latMul b c = none) ∧
    (∀ r, latMul b c = some r → r.vec.length = c.vec.length) := by
  constructor
  · rintro ⟨u, hu, hne⟩
    unfold latMul
    by_cases hlen : b.basis.length = c.vec.length
    · rw [if_pos hlen]
      rw [rowDots_none hu (fun hok => hne (hok.2.trans hlen.symm))]
    · rw [if_neg hlen]
  · intro r h
    obtain ⟨hlen, xs, n, hr, hn, hrr⟩ := latMul_some_iff.mp h
    subst hrr
    simpa [rowDots_length hr] using hlen

/-- C10, witness: a 1-vector basis of dimension 2 panics for any `c`; a
square product returns a vector of the coefficient length. -/
theorem basis_product_shape_witness :
    latMul ⟨[⟨[1, 2], none⟩]⟩ ⟨[5], none⟩ = none ∧
    (Vec.mk [1, 0] (some 1) : Vec ℤ).vec.length = ([1, 0] : List ℤ).length :=
  ⟨(basis_product_shape ⟨[⟨[1, 2], none⟩]⟩ ⟨[5], none⟩).1
      ⟨⟨[1, 2], none⟩, by decide, by decide⟩,
    (basis_product_shape ⟨[⟨[1, 1], none⟩, ⟨[0, 1], none⟩]⟩ ⟨[1, 0], none⟩).2
      ⟨[1, 0], some 1⟩ (by decide)⟩

/-! Gauss pair-reduction: the C5 development. -/

theorem gaussReduce_fire_norm_pos {v : Vec ℤ} {nv ip : ℤ}
    (hnv : nv = dotZ v.vec v.vec) (hfire : nv < |2 * ip|)
    (hip : ip = dotZ (s : List ℤ) v.vec) : 0 < nv := by
  rcases lt_or_eq_of_le (hnv ▸ dotZ_self_nonneg v.vec) with h | h
  · exact h
  · exfalso
    have hz : ∀ a ∈ v.vec, a = 0 := dotZ_self_eq_zero (hnv ▸ h).symm
    have : ip = 0 := hip ▸ dotZ_right_zero hz
    rw [this] at hfire
    simp at hfire
    omega

/-- C5.  For `self`, `v` of equal nonzero length with `v.norm` cached as
`dot(v,v)`: writing `ip = dot(self, v)`, when `‖v‖² ≥ |2·ip|` the reduction
returns `false` and `self` (coordinates and cached norm) unchanged; when
`‖v‖² < |2·ip|` it returns `true` with result `self - q·v` component-wise,
`q = divRound ip ‖v‖²` a nearest-integer rounding of `ip/‖v‖²` (shown by
`|q - ip/‖v‖²| ≤ 1/2`), and the norm refreshed to the new `dot(self,self)`.
This models both `GaussReduce<i64>` and `GaussReduce<Integer>` (the former
computes `q` through `f64`, exact for the magnitudes modelled here). -/
theorem gauss_reduce_spec (self v : Vec ℤ) (nv : ℤ)
    (hs : self.vec ≠ []) (hlen : self.vec.length = v.vec.length)
    (hn : v.norm = some nv) (hnv : nv = dotZ v.vec v.vec) :
    (¬ nv < |2 * dotZ self.vec v.vec| → gaussReduce self v = some (self, false)) ∧
    (nv < |2 * dotZ self.vec v.vec| →
      ∃ r : Vec ℤ, gaussReduce self v = some (r, true) ∧
        |(divRound (dotZ self.vec v.vec) nv : ℚ) -
            (dotZ self.vec v.vec : ℚ) / (nv : ℚ)| ≤ 1 / 2 ∧
        r.vec.length = self.vec.length ∧
        (∀ i (h1 : i < r.vec.length) (h2 : i < self.vec.length) (h3 : i < v.vec.length),
          r.vec.get ⟨i, h1⟩ =
            self.vec.get ⟨i, h2⟩ -
              divRound (dotZ self.vec v.vec) nv * v.vec.get ⟨i, h3⟩) ∧
        r.norm = some (dotZ r.vec r.vec)) := by
  have hok : dotOk self.vec v.vec := ⟨hs, hlen⟩
  have hdot : dotP self.vec v.vec = some (dotZ self.vec v.vec) := by
    simp [dotP, hok]
  constructor
  · intro hge
    unfold gaussReduce
    rw [hdot, hn]
    dsimp only
    rw [if_neg hge]
  · intro hfire
    have hpos : 0 < nv := gaussReduce_fire_norm_pos hnv hfire rfl
    set q := divRound (dotZ self.vec v.vec) nv with hq
    set w := List.zipWith (fun a b => a - q * b) self.vec v.vec with hw
    have hwlen : w.length = self.vec.length := by
      rw [hw, List.length_zipWith]
      omega
    have hwne : w ≠ [] := by
      intro hnil
      apply hs
      have := hwlen
      rw [hnil] at this
      simpa using this.symm
    have hokw : dotOk w w := ⟨hwne, rfl⟩
    refine ⟨⟨w, some (dotZ w w)⟩, ?_, divRound_char _ _ hpos, hwlen, ?_, rfl⟩
    · unfold gaussReduce
      rw [hdot, hn]
      dsimp only
      rw [if_pos hfire]
      simp only [← hq, ← hw, dotP, if_pos hokw]
    · intro i h1 h2 h3
      simp only [List.get_eq_getElem]
      simp only [hw]
      simp [List.getElem_zipWith]

/-- C5, witness at `self = ([3,0], norm 9)`, `v = ([1,0], norm 1)`:
`ip = 3`, `1 < 6`, so the reduction fires. -/
theorem gauss_reduce_spec_witness :
    (¬ (1 : ℤ) < |2 * dotZ [3, 0] [1, 0]| →
      gaussReduce ⟨[3, 0], some 9⟩ ⟨[1, 0], some 1⟩ =
        some (⟨[3, 0], some 9⟩, false)) ∧
    ((1 : ℤ) < |2 * dotZ [3, 0] [1, 0]| →
      ∃ r : Vec ℤ, gaussReduce ⟨[3, 0], some 9⟩ ⟨[1, 0], some 1⟩ = some (r, true) ∧
        |(divRound (dotZ [3, 0] [1, 0]) 1 : ℚ) -
            (dotZ [3, 0] [1, 0] : ℚ) / ((1 : ℤ) : ℚ)| ≤ 1 / 2 ∧
        r.vec.length = ([3, 0] : List ℤ).length ∧
        (∀ i (h1 : i < r.vec.length) (h2 : i < ([3, 0] : List ℤ).length)
            (h3 : i < ([1, 0] : List ℤ).length),
          r.vec.get ⟨i, h1⟩ =
            ([3, 0] : List ℤ).get ⟨i, h2⟩ -
              divRound (dotZ [3, 0] [1, 0]) 1 * ([1, 0] : List ℤ).get ⟨i, h3⟩) ∧
        r.norm = some (dotZ r.vec r.vec)) :=
  gauss_reduce_spec ⟨[3, 0], some 9⟩ ⟨[1, 0], some 1⟩ 1 (by decide) (by decide)
    rfl (by decide)

/-! Rounding of the mixed integer-by-real basis products: the C7 development. -/

theorem truncQ_char (d : ℚ) : |d - (truncQ d : ℚ)| < 1 ∧ |(truncQ d : ℚ)| ≤ |d| := by
  unfold truncQ
  rcases le_or_lt 0 d with hd | hd
  · rw [if_pos hd]
    have h1 : ((⌊d⌋ : ℤ) : ℚ) ≤ d := Int.floor_le d
    have h2 : d < ⌊d⌋ + 1 := Int.lt_floor_add_one d
    have h3 : (0 : ℚ) ≤ ((⌊d⌋ : ℤ) : ℚ) := by
      exact_mod_cast Int.floor_nonneg.mpr hd
    constructor
    · rw [abs_lt]; constructor <;> linarith
    · rw [abs_of_nonneg h3, abs_of_nonneg hd]; linarith
  · rw [if_neg (not_le.mpr hd)]
    have h1 : d ≤ ((⌈d⌉ : ℤ) : ℚ) := Int.le_ceil d
    have h2 : ((⌈d⌉ : ℤ) : ℚ) < d + 1 := Int.ceil_lt_add_one d
    have h3 : ((⌈d⌉ : ℤ) : ℚ) ≤ 0 := by
      have : ⌈d⌉ ≤ (0 : ℤ) := Int.ceil_le.mpr (by exact_mod_cast le_of_lt hd)
      exact_mod_cast this
    constructor
    · rw [abs_lt]; constructor <;> linarith
    · rw [abs_of_nonpos h3, abs_of_neg hd]; linarith

theorem rneQ_char (d : ℚ) : |d - (rneQ d : ℚ)| ≤ 1 / 2 := by
  unfold rneQ
  have h1 : ((⌊d⌋ : ℤ) : ℚ) ≤ d := Int.floor_le d
  have h2 : d < ⌊d⌋ + 1 := Int.lt_floor_add_one d
  by_cases hlt : d - ⌊d⌋ < 1 / 2
  · rw [if_pos hlt, abs_le]
    constructor <;> push_cast <;> linarith
  · rw [if_neg hlt]
    by_cases hgt : 1 / 2 < d - ⌊d⌋
    · rw [if_pos hgt, abs_le]
      constructor <;> push_cast <;> linarith
    · rw [if_neg hgt]
      have heq : d - ⌊d⌋ = 1 / 2 := le_antisymm (not_lt.mp hgt) (not_lt.mp hlt)
      by_cases hev : ⌊d⌋ % 2 = 0
      · rw [if_pos hev, abs_le]
        constructor <;> push_cast <;> linarith
      · rw [if_neg hev, abs_le]
        constructor <;> push_cast <;> linarith

theorem forall₂_map_left {f : ℚ → ℤ} {P : ℤ → ℚ → Prop}
    (h : ∀ d, P (f d) d) (ds : List ℚ) : List.Forall₂ P (ds.map f) ds := by
  induction ds with
  | nil => exact List.Forall₂.nil
  | cons d rest ih => exact List.Forall₂.cons (h d) ih

theorem rowDotsQ_some {bs : List (Vec ℤ)} {c : Vec ℚ} {ds : List ℚ}
    (h : rowDotsQ bs c = some ds) : ds.length = bs.length := by
  induction bs generalizing ds with
  | nil => simp [rowDotsQ] at h; simp [← h]
  | cons u rest ih =>
    unfold rowDotsQ at h
    cases hd : dotPQ (castQ u.vec) c.vec with
    | none => rw [hd] at h; exact absurd h (by simp)
    | some x =>
      rw [hd] at h
      cases hr : rowDotsQ rest c with
      | none => rw [hr] at h; exact absurd h (by simp)
      | some ys =>
        rw [hr] at h
        simp only [Option.some.injEq] at h
        subst h
        simp [ih hr]

theorem latMulTrunc_some_vec {b : Lattice ℤ} {c : Vec ℚ} {r : Vec ℤ}
    (h : latMulTrunc b c = some r) :
    ∃ ds, rowDotsQ b.basis c = some ds ∧ r.vec = ds.map truncQ := by
  unfold latMulTrunc at h
  split at h
  · cases hr : rowDotsQ b.basis c with
    | none => rw [hr] at h; exact absurd h (by simp)
    | some ds =>
      rw [hr] at h
      dsimp only at h
      cases hn : dotP (ds.map truncQ) (ds.map truncQ) with
      | none => simp only [hn] at h; exact absurd h (by simp)
      | some n =>
        simp only [hn, Option.some.injEq] at h
        exact ⟨ds, rfl, by rw [← h]⟩
  · exact absurd h (by simp)

theorem latMulRne_some_vec {b : Lattice ℤ} {c : Vec ℚ} {r : Vec ℤ}
    (h : latMulRne b c = some r) :
    ∃ ds, rowDotsQ b.basis c = some ds ∧ r.vec = ds.map rneQ := by
  unfold latMulRne at h
  split at h
  · cases hr : rowDotsQ b.basis c with
    | none => rw [hr] at h; exact absurd h (by simp)
    | some ds =>
      rw [hr] at h
      dsimp only at h
      cases hn : dotP (ds.map rneQ) (ds.map rneQ) with
      | none => simp only [hn] at h; exact absurd h (by simp)
      | some n =>
        simp only [hn, Option.some.injEq] at h
        exact ⟨ds, rfl, by rw [← h]⟩
  · exact absurd h (by simp)

/-- C7, counterexample.  For the one-vector basis `[[1]]` and the real
coefficient vector `[3/4]`, the exact row product is `3/4`; the
arbitrary-precision product (`Float::to_integer`, round to nearest) returns
coordinate `1`, while truncation toward zero gives `0`: the two regimes do
NOT both truncate, refuting the claim. -/
theorem mixed_product_truncation_counterexample :
    latMulRne ⟨[⟨[1], none⟩]⟩ ⟨[3 / 4], none⟩ = some ⟨[1], some 1⟩ ∧
    truncQ (dotQ (castQ [1]) [3 / 4]) = 0 ∧ ((1 : ℤ) ≠ 0) := by
  refine ⟨?_, ?_, by decide⟩
  · norm_num [latMulRne, rowDotsQ, dotPQ, dotOkQ, dotQ, castQ, rneQ, dotP,
      dotOk, dotZ]
  · norm_num [truncQ, dotQ, castQ]

/-- C7, amended.  Whenever the mixed products return, each machine-regime
coordinate `x` is the truncation toward zero of the exact row product `d`
(`|d - x| < 1` and `|x| ≤ |d|`), and each arbitrary-precision coordinate is a
round to NEAREST of `d` (`|d - x| ≤ 1/2`), not a truncation. -/
theorem mixed_product_rounding (b : Lattice ℤ) (c : Vec ℚ) :
    (∀ r, latMulTrunc b c = some r → ∀ ds, rowDotsQ b.basis c = some ds →
      List.Forall₂ (fun (x : ℤ) (d : ℚ) => |d - (x : ℚ)| < 1 ∧ |(x : ℚ)| ≤ |d|)
        r.vec ds) ∧
    (∀ r, latMulRne b c = some r → ∀ ds, rowDotsQ b.basis c = some ds →
      List.Forall₂ (fun (x : ℤ) (d : ℚ) => |d - (x : ℚ)| ≤ 1 / 2) r.vec ds) := by
  constructor
  · intro r h ds hds
    obtain ⟨ds', hds', hvec⟩ := latMulTrunc_some_vec h
    rw [hds'] at hds
    injection hds with hds
    subst hds
    rw [hvec]
    exact forall₂_map_left (fun d => ⟨(truncQ_char d).1, (truncQ_char d).2⟩) ds'
  · intro r h ds hds
    obtain ⟨ds', hds', hvec⟩ := latMulRne_some_vec h
    rw [hds'] at hds
    injection hds with hds
    subst hds
    rw [hvec]
    exact forall₂_map_left rneQ_char ds'

/-- C7, witness for the amended theorem at the counterexample input. -/
theorem mixed_product_rounding_witness :
    List.Forall₂ (fun (x : ℤ) (d : ℚ) => |d - (x : ℚ)| ≤ 1 / 2)
      (Vec.mk [1] (some 1) : Vec ℤ).vec [3 / 4] :=
  (mixed_product_rounding ⟨[⟨[1], none⟩]⟩ ⟨[3 / 4], none⟩).2
    ⟨[1], some 1⟩
    (by norm_num [latMulRne, rowDotsQ, dotPQ, dotOkQ, dotQ, castQ, rneQ,
          dotP, dotOk, dotZ])
    [3 / 4]
    (by norm_num [rowDotsQ, dotPQ, dotOkQ, dotQ, castQ])

/-! Gauss Sieve construction: the C8 development. -/

/-- C8, counterexample.  `gsieve!` clones the basis into the stack verbatim:
for a lattice whose basis vector carries no cached norm, construction
succeeds (the GSO and the sampler do not need the input norms) but the
pending stack's element still has `norm = None`, not its squared norm. -/
theorem gsieve_stack_norm_counterexample :
    (gsieve ⟨[⟨[1], none⟩]⟩ 1).map GaussSieve.s = some [⟨[1], none⟩] ∧
    (Vec.norm (⟨[1], none⟩ : Vec ℤ) ≠ some (dotZ [1] [1])) := by
  constructor
  · norm_num [gsieve, gso, gsoAux, projLoop, dotPQ, dotOkQ, dotQ, castQ,
      KleinSampler.init, maxNormLoop, s2Map]
  · decide

/-- C8, amended.  Whenever `gsieve!` returns, the state has `b` the given
lattice, `l` empty, `s` an EXACT clone of the basis (norm fields copied as
given, populated only when the caller populated them), and `k` the Klein
sampler built from the lattice's GSO with parameter `t`. -/
theorem gsieve_state (lat : Lattice ℤ) (t : ℚ) (st : GaussSieve)
    (h : gsieve lat t = some st) :
    st.b = lat ∧ st.l = [] ∧ st.s = lat.basis ∧
    ∃ gs, gso lat = some gs ∧ KleinSampler.init gs t = some st.k := by
  unfold gsieve at h
  cases hg : gso lat with
  | none => rw [hg] at h; exact absurd h (by simp)
  | some gs =>
    rw [hg] at h
    dsimp only at h
    cases hk : KleinSampler.init gs t with
    | none => simp only [hk] at h; exact absurd h (by simp)
    | some k =>
      simp only [hk, Option.some.injEq] at h
      subst h
      exact ⟨rfl, rfl, rfl, gs, rfl, hk⟩

/-- C8, witness for the amended theorem at the 1-dimensional lattice `[[1]]`
with cached norm and `t = 1`. -/
theorem gsieve_state_witness :
    (GaussSieve.mk ⟨[⟨[1], some 1⟩]⟩ ⟨[⟨[1], some 1⟩], 1, [1]⟩ []
        [⟨[1], some 1⟩]).b = ⟨[⟨[1], some 1⟩]⟩ ∧
    (GaussSieve.mk ⟨[⟨[1], some 1⟩]⟩ ⟨[⟨[1], some 1⟩], 1, [1]⟩ []
        [⟨[1], some 1⟩]).l = [] ∧
    (GaussSieve.mk ⟨[⟨[1], some 1⟩]⟩ ⟨[⟨[1], some 1⟩], 1, [1]⟩ []
        [⟨[1], some 1⟩]).s = (Lattice.mk [⟨[1], some 1⟩] : Lattice ℤ).basis ∧
    ∃ gs, gso ⟨[⟨[1], some 1⟩]⟩ = some gs ∧
      KleinSampler.init gs 1 =
        some (GaussSieve.mk ⟨[⟨[1], some 1⟩]⟩ ⟨[⟨[1], some 1⟩], 1, [1]⟩ []
          [⟨[1], some 1⟩]).k :=
  gsieve_state ⟨[⟨[1], some 1⟩]⟩ 1 _
    (by norm_num [gsieve, gso, gsoAux, projLoop, dotPQ, dotOkQ, dotQ, castQ,
          KleinSampler.init, maxNormLoop, s2Map])

/-! Klein sampler setup: the C9 development. -/

theorem maxNormLoop_spec {gs : List (Vec ℚ)} (acc : ℚ)
    (hn : ∀ g ∈ gs, g.norm ≠ none) :
    ∃ M, maxNormLoop gs acc = some M ∧
      (M = acc ∨ some M ∈ gs.map Vec.norm) ∧ acc ≤ M ∧
      ∀ g ∈ gs, ∀ n, g.norm = some n → n ≤ M := by
  induction gs generalizing acc with
  | nil => exact ⟨acc, rfl, Or.inl rfl, le_refl acc, by simp⟩
  | cons g rest ih =>
    cases hg : g.norm with
    | none => exact absurd hg (hn g (by simp))
    | some n =>
      obtain ⟨M, hM, hmem, hacc, hub⟩ :=
        ih (if acc < n then n else acc) (fun x hx => hn x (by simp [hx]))
      refine ⟨M, ?_, ?_, ?_, ?_⟩
      · unfold maxNormLoop
        rw [hg]
        exact hM
      · rcases hmem with hmem | hmem
        · subst hmem
          by_cases hlt : acc < n
          · right
            rw [if_pos hlt]
            simp [hg]
          · left
            rw [if_neg hlt]
        · right
          simp [hmem]
      · rcases le_or_lt n acc with hle | hlt
        · rw [if_neg (not_lt.mpr hle)] at hacc
          exact hacc
        · rw [if_pos hlt] at hacc
          linarith
      · intro x hx m hm
        rw [List.mem_cons] at hx
        rcases hx with hx | hx
        · subst hx
          rw [hg] at hm
          injection hm with hm
          subst hm
          rcases le_or_lt n acc with hle | hlt
          · rw [if_neg (not_lt.mpr hle)] at hacc
            linarith
          · rw [if_pos hlt] at hacc
            exact hacc
        · exact hub x hx m hm

theorem s2Map_spec {gs : List (Vec ℚ)} (s : ℚ)
    (hn : ∀ g ∈ gs, g.norm ≠ none) :
    ∃ s2, s2Map gs s = some s2 ∧
      List.Forall₂ (fun (g : Vec ℚ) (x : ℚ) => ∀ n, g.norm = some n → x = s / n)
        gs s2 := by
  induction gs with
  | nil => exact ⟨[], rfl, List.Forall₂.nil⟩
  | cons g rest ih =>
    cases hg : g.norm with
    | none => exact absurd hg (hn g (by simp))
    | some n =>
      obtain ⟨s2, hs2, hF⟩ := ih (fun x hx => hn x (by simp [hx]))
      refine ⟨s / n :: s2, ?_, ?_⟩
      · unfold s2Map
        rw [hg, hs2]
      · refine List.Forall₂.cons ?_ hF
        intro m hm
        rw [hg] at hm
        injection hm with hm
        rw [hm]

/-- C9.  For a nonempty GSO with every cached norm present,
`KleinSampler::init(gs, t)` returns; it stores `gs` and `t` unchanged and an
`s2` with `s2[i] = M · t / gs[i].norm` where `M` is the maximum cached norm
over `gs`; it is a pure (deterministic) function of `gs` and `t`, with no
randomness consumed. -/
theorem klein_init_spec (gs : List (Vec ℚ)) (t : ℚ)
    (hne : gs ≠ []) (hn : ∀ g ∈ gs, g.norm ≠ none) :
    ∃ st M, KleinSampler.init gs t = some st ∧
      st.gs = gs ∧ st.t = t ∧
      some M ∈ gs.map Vec.norm ∧
      (∀ g ∈ gs, ∀ n, g.norm = some n → n ≤ M) ∧
      List.Forall₂ (fun (g : Vec ℚ) (x : ℚ) => ∀ n, g.norm = some n → x = M * t / n)
        gs st.s2 := by
  cases gs with
  | nil => exact absurd rfl hne
  | cons g0 rest =>
    cases hg0 : g0.norm with
    | none => exact absurd hg0 (hn g0 (by simp))
    | some n0 =>
      obtain ⟨M, hM, hmem, hacc, hub⟩ := maxNormLoop_spec n0 hn
      obtain ⟨s2, hs2, hF⟩ := s2Map_spec (M * t) hn
      refine ⟨⟨g0 :: rest, t, s2⟩, M, ?_, rfl, rfl, ?_, hub, hF⟩
      · unfold KleinSampler.init
        dsimp only
        rw [hg0]
        dsimp only
        rw [hM]
        dsimp only
        rw [hs2]
      · rcases hmem with hmem | hmem
        · subst hmem
          simp [hg0]
        · exact hmem

/-- C9, witness at `gs = [([1], norm 1), ([1], norm 4)]`, `t = 2`:
`M = 4`, `s2 = [8, 2]`. -/
theorem klein_init_spec_witness :
    ∃ st M, KleinSampler.init [⟨[1], some 1⟩, ⟨[1], some 4⟩] 2 = some st ∧
      st.gs = [⟨[1], some 1⟩, ⟨[1], some 4⟩] ∧ st.t = 2 ∧
      some M ∈ ([⟨[1], some 1⟩, ⟨[1], some 4⟩] : List (Vec ℚ)).map Vec.norm ∧
      (∀ g ∈ ([⟨[1], some 1⟩, ⟨[1], some 4⟩] : List (Vec ℚ)), ∀ n,
        g.norm = some n → n ≤ M) ∧
      List.Forall₂ (fun (g : Vec ℚ) (x : ℚ) => ∀ n, g.norm = some n → x = M * 2 / n)
        [⟨[1], some 1⟩, ⟨[1], some 4⟩] st.s2 :=
  klein_init_spec [⟨[1], some 1⟩, ⟨[1], some 4⟩] 2 (by simp)
    (by intro g hg
        rw [List.mem_cons] at hg
        rcases hg with hg | hg
        · rw [hg]; simp
        · rw [List.mem_cons] at hg
          rcases hg with hg | hg
          · rw [hg]; simp
          · simp at hg)

/-! Gram-Schmidt orthogonalization: the C6 development. -/

/-- C6.  On the 2-vector, dimension-3 basis `[[1,0,1],[1,0,0]]` the source's
`gso` (inner coordinate loop bounded by `self.basis.len() = 2`) leaves the
third coordinate of `gs[1]` untouched and returns `gs[1] = (1/2, 0, 0)` with
norm `1/4`, while the classical Gram-Schmidt subtraction over EVERY
coordinate — what the spec states and this function's own documentation
promises — gives `gs[1] = (1/2, 0, -1/2)` with norm `1/2`. -/
theorem gso_k_bound_bug :
    gso ⟨[⟨[1, 0, 1], none⟩, ⟨[1, 0, 0], none⟩]⟩ =
      some [⟨[1, 0, 1], some 2⟩, ⟨[1 / 2, 0, 0], some (1 / 4)⟩] ∧
    gsoSpec ⟨[⟨[1, 0, 1], none⟩, ⟨[1, 0, 0], none⟩]⟩ =
      some [⟨[1, 0, 1], some 2⟩, ⟨[1 / 2, 0, -(1 / 2)], some (1 / 2)⟩] ∧
    ((some [⟨[1, 0, 1], some 2⟩, ⟨[1 / 2, 0, 0], some (1 / 4)⟩] :
        Option (List (Vec ℚ))) ≠
      some [⟨[1, 0, 1], some 2⟩, ⟨[1 / 2, 0, -(1 / 2)], some (1 / 2)⟩]) := by
  refine ⟨?_, ?_, ?_⟩
  · norm_num [gso, gsoAux, projLoop, updateK, dotPQ, dotOkQ, dotQ, castQ]
    simp
    norm_num
  · norm_num [gsoSpec, gsoSpecAux, gsoSpecStep, dotPQ, dotOkQ, dotQ, castQ]
    simp
    norm_num
  · intro h
    injection h with h
    rw [List.cons_eq_cons] at h
    obtain ⟨-, h⟩ := h
    rw [List.cons_eq_cons] at h
    obtain ⟨h, -⟩ := h
    have : ((1 : ℚ) / 4) = 1 / 2 := by
      have := congrArg Vec.norm h
      simpa using this
    norm_num at this

/-! Inversion and preservation lemmas for the list-reduce machinery. -/

/-- Cached-norm well-formedness: the spec's Vector invariant. -/
def WFnorm (u : Vec ℤ) : Prop :=
  u.norm = some (dotZ u.vec u.vec)

instance (u : Vec ℤ) : Decidable (WFnorm u) := by
  unfold WFnorm; infer_instance

theorem dotZ_comm (u v : List ℤ) : dotZ u v = dotZ v u := by
  unfold dotZ
  congr 1
  induction u generalizing v with
  | nil => cases v <;> simp
  | cons a u ih =>
    cases v with
    | nil => simp
    | cons b v => simp [ih, mul_comm]

theorem gaussReduce_false_inv {v u v' : Vec ℤ}
    (h : gaussReduce v u = some (v', false)) :
    v' = v ∧ ∃ nu, u.norm = some nu ∧ ¬ nu < |2 * dotZ v.vec u.vec| := by
  unfold gaussReduce at h
  cases hd : dotP v.vec u.vec with
  | none => rw [hd] at h; exact absurd h (by simp)
  | some ip =>
    rw [hd] at h
    have hip : ip = dotZ v.vec u.vec := by
      by_cases hok : dotOk v.vec u.vec
      · simp [dotP, hok] at hd; omega
      · simp [dotP, hok] at hd
    cases hn : u.norm with
    | none => simp only [hn] at h; exact absurd h (by simp)
    | some nu =>
      simp only [hn] at h
      by_cases hf : nu < |2 * ip|
      · rw [if_pos hf] at h
        cases hw : dotP (List.zipWith (fun a b => a - divRound ip nu * b) v.vec u.vec)
            (List.zipWith (fun a b => a - divRound ip nu * b) v.vec u.vec) with
        | none => simp only [hw] at h; exact absurd h (by simp)
        | some nw => simp only [hw] at h; simp at h
      · rw [if_neg hf] at h
        simp only [Option.some.injEq, Prod.mk.injEq, and_true] at h
        exact ⟨h.symm, nu, rfl, hip ▸ hf⟩

theorem gaussReduce_true_inv {v u v' : Vec ℤ}
    (h : gaussReduce v u = some (v', true)) :
    WFnorm v' ∧ v'.vec.length = min v.vec.length u.vec.length ∧
    ∃ nu, u.norm = some nu ∧ nu < |2 * dotZ v.vec u.vec| := by
  unfold gaussReduce at h
  cases hd : dotP v.vec u.vec with
  | none => rw [hd] at h; exact absurd h (by simp)
  | some ip =>
    rw [hd] at h
    have hip : ip = dotZ v.vec u.vec := by
      by_cases hok : dotOk v.vec u.vec
      · simp [dotP, hok] at hd; omega
      · simp [dotP, hok] at hd
    cases hn : u.norm with
    | none => simp only [hn] at h; exact absurd h (by simp)
    | some nu =>
      simp only [hn] at h
      by_cases hf : nu < |2 * ip|
      · rw [if_pos hf] at h
        cases hw : dotP (List.zipWith (fun a b => a - divRound ip nu * b) v.vec u.vec)
            (List.zipWith (fun a b => a - divRound ip nu * b) v.vec u.vec) with
        | none => simp only [hw] at h; exact absurd h (by simp)
        | some nw =>
          simp only [hw, Option.some.injEq, Prod.mk.injEq, and_true] at h
          have hok : dotOk (List.zipWith (fun a b => a - divRound ip nu * b) v.vec u.vec)
              (List.zipWith (fun a b => a - divRound ip nu * b) v.vec u.vec) := by
            by_contra hno
            simp [dotP, hno] at hw
          simp only [dotP, if_pos hok, Option.some.injEq] at hw
          refine ⟨?_, ?_, nu, rfl, hip ▸ hf⟩
          · rw [← h]
            unfold WFnorm
            simp [← hw]
          · rw [← h]
            simp [List.length_zipWith]
      · rw [if_neg hf] at h
        simp at h

theorem gaussReduce_some_ok {v u : Vec ℤ} {p : Vec ℤ × Bool}
    (h : gaussReduce v u = some p) : dotOk v.vec u.vec := by
  by_contra hno
  unfold gaussReduce at h
  simp [dotP, hno] at h

theorem gaussReduce_preserves {v u : Vec ℤ} {v' : Vec ℤ} {fired : Bool}
    (h : gaussReduce v u = some (v', fired)) :
    v'.vec.length = v.vec.length ∧ (v.vec ≠ [] → v'.vec ≠ []) ∧
    (WFnorm v → WFnorm v') := by
  have hok := gaussReduce_some_ok h
  cases fired with
  | false =>
    obtain ⟨hv, -⟩ := gaussReduce_false_inv h
    subst hv
    exact ⟨rfl, fun h => h, fun h => h⟩
  | true =>
    obtain ⟨hWF, hlen, -⟩ := gaussReduce_true_inv h
    have hl : v'.vec.length = v.vec.length := by
      rw [hlen, hok.2, min_self, ← hok.2]
    refine ⟨hl, ?_, fun _ => hWF⟩
    intro hne hcon
    apply hok.1
    rw [hcon] at hl
    exact List.length_eq_zero.mp hl.symm

theorem scanPass_true {l : List (Vec ℤ)} :
    ∀ {i : ℕ} {v : Vec ℤ} {idx : ℕ} {v' : Vec ℤ} {idx' : ℕ} {red' : Bool},
      scanPass l i v idx true = some (v', idx', red') → red' = true := by
  induction l with
  | nil =>
    intro i v idx v' idx' red' h
    unfold scanPass at h
    simp only [Option.some.injEq, Prod.mk.injEq] at h
    exact h.2.2.symm
  | cons u rest ih =>
    intro i v idx v' idx' red' h
    unfold scanPass at h
    by_cases hb : optGt u.norm v.norm
    · rw [if_pos hb] at h
      simp only [Option.some.injEq, Prod.mk.injEq] at h
      exact h.2.2.symm
    · rw [if_neg (by simpa using hb)] at h
      cases hg : gaussReduce v u with
      | none => rw [hg] at h; exact absurd h (by simp)
      | some p =>
        rw [hg] at h
        exact ih (by simpa using h)

theorem scanPass_false {l : List (Vec ℤ)} :
    ∀ {i idx : ℕ} {v v' : Vec ℤ} {idx' : ℕ},
      scanPass l i v idx false = some (v', idx', false) →
      v' = v ∧
      ((∃ pre x post, l = pre ++ x :: post ∧ idx' = i + pre.length ∧
          optGt x.norm v.norm = true ∧
          ∀ u ∈ pre, optGt u.norm v.norm = false ∧ gaussReduce v u = some (v, false)) ∨
        (idx' = idx ∧
          ∀ u ∈ l, optGt u.norm v.norm = false ∧ gaussReduce v u = some (v, false))) := by
  induction l with
  | nil =>
    intro i idx v v' idx' h
    unfold scanPass at h
    simp only [Option.some.injEq, Prod.mk.injEq] at h
    exact ⟨h.1.symm, Or.inr ⟨h.2.1.symm, by simp⟩⟩
  | cons u rest ih =>
    intro i idx v v' idx' h
    unfold scanPass at h
    by_cases hb : optGt u.norm v.norm
    · rw [if_pos hb] at h
      simp only [Option.some.injEq, Prod.mk.injEq] at h
      obtain ⟨hv, hidx, -⟩ := h
      subst hv
      refine ⟨rfl, Or.inl ⟨[], u, rest, rfl, by simpa using hidx.symm, hb, by simp⟩⟩
    · rw [if_neg (by simpa using hb)] at h
      cases hg : gaussReduce v u with
      | none => rw [hg] at h; exact absurd h (by simp)
      | some p =>
        obtain ⟨v1, fired⟩ := p
        rw [hg] at h
        have h2 : scanPass rest (i + 1) v1 idx (false || fired) =
            some (v', idx', false) := h
        cases fired with
        | true =>
          rw [Bool.false_or] at h2
          exact absurd (scanPass_true h2) (by simp)
        | false =>
          rw [Bool.false_or] at h2
          obtain ⟨hv1, -⟩ := gaussReduce_false_inv hg
          subst hv1
          obtain ⟨hv, hcases⟩ := ih h2
          subst hv
          refine ⟨rfl, ?_⟩
          rcases hcases with ⟨pre, x, post, hl, hidx, hx, hpre⟩ | ⟨hidx, hall⟩
          · left
            refine ⟨u :: pre, x, post, by simp [hl], by simp [hidx]; omega, hx, ?_⟩
            intro w hw
            rw [List.mem_cons] at hw
            rcases hw with hw | hw
            · subst hw
              exact ⟨by simpa using hb, hg⟩
            · exact hpre w hw
          · right
            refine ⟨hidx, ?_⟩
            intro w hw
            rw [List.mem_cons] at hw
            rcases hw with hw | hw
            · subst hw
              exact ⟨by simpa using hb, hg⟩
            · exact hall w hw

theorem scanPass_preserves {l : List (Vec ℤ)} :
    ∀ {i idx : ℕ} {v : Vec ℤ} {red : Bool} {v' : Vec ℤ} {idx' : ℕ} {red' : Bool},
      scanPass l i v idx red = some (v', idx', red') →
      v'.vec.length = v.vec.length ∧ (v.vec ≠ [] → v'.vec ≠ []) ∧
      (WFnorm v → WFnorm v') := by
  induction l with
  | nil =>
    intro i idx v red v' idx' red' h
    unfold scanPass at h
    simp only [Option.some.injEq, Prod.mk.injEq] at h
    obtain ⟨hv, -⟩ := h
    subst hv
    exact ⟨rfl, fun h => h, fun h => h⟩
  | cons u rest ih =>
    intro i idx v red v' idx' red' h
    unfold scanPass at h
    by_cases hb : optGt u.norm v.norm
    · rw [if_pos hb] at h
      simp only [Option.some.injEq, Prod.mk.injEq] at h
      obtain ⟨hv, -⟩ := h
      subst hv
      exact ⟨rfl, fun h => h, fun h => h⟩
    · rw [if_neg (by simpa using hb)] at h
      cases hg : gaussReduce v u with
      | none => rw [hg] at h; exact absurd h (by simp)
      | some p =>
        obtain ⟨v1, fired⟩ := p
        rw [hg] at h
        have h2 : scanPass rest (i + 1) v1 idx (red || fired) =
            some (v', idx', red') := h
        obtain ⟨hg1, hg2, hg3⟩ := gaussReduce_preserves hg
        obtain ⟨hh1, hh2, hh3⟩ := ih h2
        exact ⟨hh1.trans hg1, fun hne => hh2 (hg2 hne), fun hwf => hh3 (hg3 hwf)⟩

theorem scanLoop_inv {fuel : ℕ} :
    ∀ {l : List (Vec ℤ)} {v : Vec ℤ} {idx : ℕ} {v' : Vec ℤ} {idx' : ℕ},
      scanLoop fuel l v idx = some (v', idx') →
      (v'.vec.length = v.vec.length ∧ (v.vec ≠ [] → v'.vec ≠ []) ∧
        (WFnorm v → WFnorm v')) ∧
      ∃ idx₀, scanPass l 0 v' idx₀ false = some (v', idx', false) := by
  induction fuel with
  | zero =>
    intro l v idx v' idx' h
    exact absurd h (by simp [scanLoop])
  | succ fuel ih =>
    intro l v idx v' idx' h
    unfold scanLoop at h
    cases hp : scanPass l 0 v idx false with
    | none => rw [hp] at h; exact absurd h (by simp)
    | some t =>
      obtain ⟨v1, idx1, red⟩ := t
      rw [hp] at h
      cases red with
      | true =>
        have h2 : scanLoop fuel l v1 idx1 = some (v', idx') := h
        obtain ⟨⟨hp1, hp2, hp3⟩, hrest⟩ := ih h2
        obtain ⟨hq1, hq2, hq3⟩ := scanPass_preserves hp
        exact ⟨⟨hp1.trans hq1, fun hne => hp2 (hq2 hne),
          fun hwf => hp3 (hq3 hwf)⟩, hrest⟩
      | false =>
        simp only [Bool.false_eq_true, if_false, Option.some.injEq,
          Prod.mk.injEq] at h
        obtain ⟨hv, hidx⟩ := h
        obtain ⟨hveq, -⟩ := scanPass_false hp
        subst hveq
        subst hv
        subst hidx
        exact ⟨⟨rfl, fun h => h, fun h => h⟩, idx, hp⟩

theorem tailReduce_facts {v : Vec ℤ} :
    ∀ {rest kept moved : List (Vec ℤ)},
      tailReduce rest v = some (kept, moved) →
      kept.Sublist rest ∧ ∀ u ∈ kept, gaussReduce u v = some (u, false) := by
  intro rest
  induction rest with
  | nil =>
    intro kept moved h
    unfold tailReduce at h
    simp only [Option.some.injEq, Prod.mk.injEq] at h
    rw [← h.1]
    exact ⟨List.Sublist.refl [], by simp⟩
  | cons u rest ih =>
    intro kept moved h
    unfold tailReduce at h
    cases hg : gaussReduce u v with
    | none => rw [hg] at h; exact absurd h (by simp)
    | some p =>
      obtain ⟨u1, fired⟩ := p
      rw [hg] at h
      cases hr : tailReduce rest v with
      | none =>
        rw [hr] at h
        exact absurd h (by simp)
      | some km =>
        obtain ⟨k, m⟩ := km
        rw [hr] at h
        obtain ⟨hk, hm⟩ := ih hr
        cases fired with
        | true =>
          simp only [if_pos, Option.some.injEq, Prod.mk.injEq] at h
          rw [← h.1]
          exact ⟨hk.cons u, hm⟩
        | false =>
          simp only [Bool.false_eq_true, if_false, Option.some.injEq,
            Prod.mk.injEq] at h
          rw [← h.1]
          refine ⟨hk.cons₂ u, ?_⟩
          intro w hw
          rw [List.mem_cons] at hw
          rcases hw with hw | hw
          · subst hw
            obtain ⟨hu1, -⟩ := gaussReduce_false_inv hg
            rw [hu1] at hg
            exact hg
          · exact hm w hw

theorem listReduce_inv {fuel : ℕ} {l s : List (Vec ℤ)} {v : Vec ℤ}
    {l' s' : List (Vec ℤ)} {v' : Vec ℤ}
    (h : listReduce fuel l s v = some (l', s', v')) :
    (v'.vec.length = v.vec.length ∧ (v.vec ≠ [] → v'.vec ≠ []) ∧
      (WFnorm v → WFnorm v')) ∧
    ∃ idx₀ idx, scanPass l 0 v' idx₀ false = some (v', idx, false) ∧
      ((v'.norm = some 0 ∧ l' = l ∧ s' = s) ∨
        (∃ nv kept moved, v'.norm = some nv ∧ nv ≠ 0 ∧
          tailReduce (l.drop idx) v' = some (kept, moved) ∧
          l' = l.take idx ++ v' :: kept ∧ s' = s ++ moved)) := by
  unfold listReduce at h
  cases hs : scanLoop fuel l v 0 with
  | none => rw [hs] at h; exact absurd h (by simp)
  | some t =>
    obtain ⟨v1, idx⟩ := t
    rw [hs] at h
    obtain ⟨hpres, idx₀, hpass⟩ := scanLoop_inv hs
    cases hn : v1.norm with
    | none => simp only [hn] at h; exact absurd h (by simp)
    | some nv =>
      simp only [hn] at h
      by_cases hz : nv ≠ 0
      · rw [if_pos hz] at h
        cases ht : tailReduce (l.drop idx) v1 with
        | none => rw [ht] at h; exact absurd h (by simp)
        | some km =>
          obtain ⟨kept, moved⟩ := km
          rw [ht] at h
          simp only [Option.some.injEq, Prod.mk.injEq] at h
          obtain ⟨hl, hs2, hv⟩ := h
          subst hv
          exact ⟨hpres, idx₀, idx, hpass,
            Or.inr ⟨nv, kept, moved, hn, hz, ht, hl.symm, hs2.symm⟩⟩
      · rw [if_neg hz] at h
        simp only [Option.some.injEq, Prod.mk.injEq] at h
        obtain ⟨hl, hs2, hv⟩ := h
        subst hv
        push_neg at hz
        exact ⟨hpres, idx₀, idx, hpass,
          Or.inl ⟨by rw [hn, hz], hl.symm, hs2.symm⟩⟩

/-! Bridges between the `Option` norm order and the sort order. -/

theorem normLe_refl (u : Vec ℤ) : normLe u u := by
  unfold normLe
  cases u.norm <;> simp

theorem normLe_trans {a b c : Vec ℤ} (h1 : normLe a b) (h2 : normLe b c) :
    normLe a c :=
  @IsTrans.trans (Vec ℤ) normLe _ a b c h1 h2

theorem normLe_of_optGt_false {u w : Vec ℤ} {nw : ℤ} (hw : w.norm = some nw)
    (h : optGt u.norm w.norm = false) : normLe u w := by
  unfold normLe
  rw [hw]
  cases hu : u.norm with
  | none => trivial
  | some nu =>
    rw [hu, hw] at h
    simpa [optGt] using h

theorem normLe_of_optGt_true {u w : Vec ℤ} (h : optGt w.norm u.norm = true) :
    normLe u w := by
  unfold normLe
  cases hu : u.norm with
  | none => trivial
  | some nu =>
    cases hw : w.norm with
    | none => rw [hu, hw] at h; simp [optGt] at h
    | some nw =>
      rw [hu, hw] at h
      simp only [optGt, decide_eq_true_eq] at h
      exact le_of_lt h

/-- C3, counterexample.  With the sorted list `[([1,0,0],1), ([0,2,0],4)]`
and `v = ([0,0,3], 9)` (norm not exceeded by any element, no reduction
possible), the scan never sets `index`, so the stale `index = 0` is used:
`v` is inserted at the FRONT and the list comes back out of order. -/
theorem list_reduce_order_counterexample :
    List.Sorted normLe [⟨[1, 0, 0], some 1⟩, ⟨[0, 2, 0], some 4⟩] ∧
    listReduce 5 [⟨[1, 0, 0], some 1⟩, ⟨[0, 2, 0], some 4⟩] []
        ⟨[0, 0, 3], some 9⟩ =
      some ([⟨[0, 0, 3], some 9⟩, ⟨[1, 0, 0], some 1⟩, ⟨[0, 2, 0], some 4⟩],
        [], ⟨[0, 0, 3], some 9⟩) ∧
    ¬ List.Sorted normLe
        [⟨[0, 0, 3], some 9⟩, ⟨[1, 0, 0], some 1⟩, ⟨[0, 2, 0], some 4⟩] := by
  refine ⟨by decide, by decide, by decide⟩

/-- C3, amended.  If `l` is ascending by cached norm before `reduce(v)`, the
run returns a surviving `v'` (`norm` cached nonzero), and SOME element of
`l` has norm strictly exceeding `v'`'s (the case the stale-index bug cannot
reach), then `v'` is inserted exactly at the first such position — `l`
splits as `pre ++ x :: post` with nothing in `pre` exceeding and `x`
exceeding, and the new list is `pre ++ v' :: kept` with `kept` the
surviving successors in order — and the new list is again ascending. -/
theorem list_reduce_sorted (fuel : ℕ) (l s : List (Vec ℤ)) (v : Vec ℤ)
    (l' s' : List (Vec ℤ)) (v' : Vec ℤ) (nv : ℤ)
    (hsorted : List.Sorted normLe l)
    (hrun : listReduce fuel l s v = some (l', s', v'))
    (hnv : v'.norm = some nv) (hnz : nv ≠ 0)
    (hex : ∃ u ∈ l, optGt u.norm v'.norm = true) :
    ∃ pre x post kept,
      l = pre ++ x :: post ∧
      optGt x.norm v'.norm = true ∧
      (∀ u ∈ pre, optGt u.norm v'.norm = false) ∧
      kept.Sublist (x :: post) ∧
      l' = pre ++ v' :: kept ∧
      List.Sorted normLe l' := by
  obtain ⟨-, idx₀, idx, hpass, hcase⟩ := listReduce_inv hrun
  obtain ⟨-, hdisj⟩ := scanPass_false hpass
  rcases hdisj with ⟨pre, x, post, hl, hidx, hx, hpre⟩ | ⟨-, hall⟩
  · rcases hcase with ⟨h0, -, -⟩ | ⟨nv2, kept, moved, hn2, hnz2, ht, hl', -⟩
    · rw [hnv] at h0
      injection h0 with h0
      exact absurd h0 hnz
    · have hidx' : idx = pre.length := by omega
      have htake : l.take idx = pre := by
        rw [hl, hidx', List.take_left]
      have hdrop : l.drop idx = x :: post := by
        rw [hl, hidx', List.drop_left]
      rw [hdrop] at ht
      obtain ⟨hksub, hkred⟩ := tailReduce_facts ht
      rw [htake] at hl'
      refine ⟨pre, x, post, kept, hl, hx, fun u hu => (hpre u hu).1, hksub, hl', ?_⟩
      rw [hl']
      rw [hl] at hsorted
      have hsorted' : List.Pairwise normLe (pre ++ x :: post) := hsorted
      rw [List.pairwise_append] at hsorted'
      obtain ⟨hsp, hsxp, hcross⟩ := hsorted'
      rw [List.pairwise_cons] at hsxp
      obtain ⟨hxpost, hspost⟩ := hsxp
      have hkx : ∀ w ∈ kept, normLe x w := by
        intro w hw
        have := hksub.mem hw
        rw [List.mem_cons] at this
        rcases this with h | h
        · rw [h]; exact normLe_refl x
        · exact hxpost w h
      have hvx : normLe v' x := normLe_of_optGt_true hx
      show List.Pairwise normLe (pre ++ v' :: kept)
      rw [List.pairwise_append]
      refine ⟨hsp, ?_, ?_⟩
      · rw [List.pairwise_cons]
        refine ⟨fun w hw => normLe_trans hvx (hkx w hw), ?_⟩
        exact List.Pairwise.sublist hksub
          (List.pairwise_cons.mpr ⟨hxpost, hspost⟩)
      · intro u hu y hy
        rw [List.mem_cons] at hy
        rcases hy with hy | hy
        · rw [hy]
          exact normLe_of_optGt_false hnv (hpre u hu).1
        · exact hcross u hu y (hksub.mem hy)
  · obtain ⟨u, hu, hgt⟩ := hex
    have := (hall u hu).1
    rw [hgt] at this
    exact absurd this (by simp)

/-- C3, witness for the amended theorem: `l = [([1,0,0],1), ([0,2,0],4)]`,
`v = ([0,0,1],1)`; the element of norm 4 exceeds, `v` lands at position 1. -/
theorem list_reduce_sorted_witness :
    ∃ pre x post kept,
      ([⟨[1, 0, 0], some 1⟩, ⟨[0, 2, 0], some 4⟩] : List (Vec ℤ)) =
        pre ++ x :: post ∧
      optGt x.norm (Vec.mk [0, 0, 1] (some 1) : Vec ℤ).norm = true ∧
      (∀ u ∈ pre, optGt u.norm (Vec.mk [0, 0, 1] (some 1) : Vec ℤ).norm = false) ∧
      kept.Sublist (x :: post) ∧
      [⟨[1, 0, 0], some 1⟩, ⟨[0, 0, 1], some 1⟩, ⟨[0, 2, 0], some 4⟩] =
        pre ++ (Vec.mk [0, 0, 1] (some 1) : Vec ℤ) :: kept ∧
      List.Sorted normLe
        [⟨[1, 0, 0], some 1⟩, ⟨[0, 0, 1], some 1⟩, ⟨[0, 2, 0], some 4⟩] :=
  list_reduce_sorted 5 [⟨[1, 0, 0], some 1⟩, ⟨[0, 2, 0], some 4⟩] []
    ⟨[0, 0, 1], some 1⟩
    [⟨[1, 0, 0], some 1⟩, ⟨[0, 0, 1], some 1⟩, ⟨[0, 2, 0], some 4⟩] []
    ⟨[0, 0, 1], some 1⟩ 1 (by decide) (by decide) (by decide) (by decide)
    ⟨⟨[0, 2, 0], some 4⟩, by decide, by decide⟩

/-! Mutual Gauss-reduction of the list: the C4 development. -/

/-- The spec's 60-degree property for one pair:
`2|⟨u,w⟩| ≤ min(‖u‖², ‖w‖²)`. -/
def mutualReduced (u w : Vec ℤ) : Prop :=
  2 * |dotZ u.vec w.vec| ≤ min (dotZ u.vec u.vec) (dotZ w.vec w.vec)

instance (u w : Vec ℤ) : Decidable (mutualReduced u w) := by
  unfold mutualReduced; infer_instance

/-- Neither vector of the pair can Gauss-reduce the other: applying
`gauss_reduce` in either direction returns `false` and changes nothing. -/
def notReducible (u w : Vec ℤ) : Prop :=
  gaussReduce u w = some (u, false) ∧ gaussReduce w u = some (w, false)

instance (u w : Vec ℤ) : Decidable (notReducible u w) := by
  unfold notReducible; infer_instance

theorem abs_two_mul_int (x : ℤ) : |2 * x| = 2 * |x| := by
  rw [abs_mul]
  norm_num

theorem nonred_of_bound {u w : Vec ℤ} (hWFw : WFnorm w)
    (hok : dotOk u.vec w.vec)
    (hb : 2 * |dotZ u.vec w.vec| ≤ dotZ w.vec w.vec) :
    gaussReduce u w = some (u, false) := by
  unfold gaussReduce
  rw [show dotP u.vec w.vec = some (dotZ u.vec w.vec) by simp [dotP, hok]]
  dsimp only
  rw [hWFw]
  dsimp only
  rw [if_neg ?hcond]
  case hcond =>
    rw [abs_two_mul_int]
    omega

theorem bound_of_scan_false {v u : Vec ℤ} (hWFu : WFnorm u)
    (h : gaussReduce v u = some (v, false)) :
    2 * |dotZ v.vec u.vec| ≤ dotZ u.vec u.vec := by
  obtain ⟨-, nu, hnu, hge⟩ := gaussReduce_false_inv h
  rw [hWFu] at hnu
  injection hnu with hnu
  rw [abs_two_mul_int] at hge
  omega

theorem optGt_WF_true {x w : Vec ℤ} (hx : WFnorm x) (hw : WFnorm w)
    (h : optGt x.norm w.norm = true) :
    dotZ w.vec w.vec < dotZ x.vec x.vec := by
  rw [hx, hw] at h
  simpa [optGt] using h

theorem optGt_WF_false {x w : Vec ℤ} (hx : WFnorm x) (hw : WFnorm w)
    (h : optGt x.norm w.norm = false) :
    dotZ x.vec x.vec ≤ dotZ w.vec w.vec := by
  rw [hx, hw] at h
  simpa [optGt] using h

theorem normLe_WF {u w : Vec ℤ} (hu : WFnorm u) (hw : WFnorm w)
    (h : normLe u w) : dotZ u.vec u.vec ≤ dotZ w.vec w.vec := by
  unfold normLe at h
  rw [hu, hw] at h
  exact h

theorem notReducible_of_mutual {u w : Vec ℤ} (hu : WFnorm u) (hw : WFnorm w)
    (hoku : dotOk u.vec w.vec) (hokw : dotOk w.vec u.vec)
    (h : mutualReduced u w) : notReducible u w := by
  unfold mutualReduced at h
  constructor
  · exact nonred_of_bound hw hoku (le_trans h (min_le_right _ _))
  · refine nonred_of_bound hu hokw ?_
    rw [dotZ_comm w.vec u.vec]
    exact le_trans h (min_le_left _ _)

/-- C4, counterexample.  The UNSORTED list `[([0,2,-2],8), ([1,0,0],1)]` is
pairwise mutually reduced (the two elements are orthogonal); reducing
`v = ([1,1,1],3)` breaks at the first element (norm 8 > 3) before `v` was
ever reduced against `([1,0,0],1)`, and the tail pass checks only the other
direction; the pair `(v, [1,0,0])` in the final list is still mutually
reducible (`2|⟨v,u⟩| = 2 > 1 = min`), refuting the claim as stated. -/
theorem list_reduce_pairwise_counterexample :
    List.Pairwise mutualReduced [⟨[0, 2, -2], some 8⟩, ⟨[1, 0, 0], some 1⟩] ∧
    listReduce 5 [⟨[0, 2, -2], some 8⟩, ⟨[1, 0, 0], some 1⟩] []
        ⟨[1, 1, 1], some 3⟩ =
      some ([⟨[1, 1, 1], some 3⟩, ⟨[0, 2, -2], some 8⟩, ⟨[1, 0, 0], some 1⟩],
        [], ⟨[1, 1, 1], some 3⟩) ∧
    gaussReduce ⟨[1, 1, 1], some 3⟩ ⟨[1, 0, 0], some 1⟩ =
      some (⟨[0, 1, 1], some 2⟩, true) ∧
    ¬ List.Pairwise notReducible
        [⟨[1, 1, 1], some 3⟩, ⟨[0, 2, -2], some 8⟩, ⟨[1, 0, 0], some 1⟩] := by
  refine ⟨by decide, by decide, by decide, by decide⟩

/-- C4, amended.  If before `reduce(v)` the list is ascending by cached
norm, every cached norm is correct, all vectors share the (nonzero)
dimension of `v`, and every pair of distinct elements of `l` is mutually
Gauss-reduced (`2|⟨u,w⟩| ≤ min(‖u‖², ‖w‖²)`), then after `reduce(v)`
returns, no pair of distinct elements of the new list is mutually
reducible: `gauss_reduce` applied in either direction to any pair returns
`false`. -/
theorem list_reduce_pairwise (fuel : ℕ) (l s : List (Vec ℤ)) (v : Vec ℤ)
    (l' s' : List (Vec ℤ)) (v' : Vec ℤ)
    (hsorted : List.Sorted normLe l)
    (hWF : ∀ u ∈ l, WFnorm u)
    (hlen : ∀ u ∈ l, u.vec.length = v.vec.length)
    (hnel : ∀ u ∈ l, u.vec ≠ [])
    (hvWF : WFnorm v) (hvne : v.vec ≠ [])
    (hpair : List.Pairwise mutualReduced l)
    (hrun : listReduce fuel l s v = some (l', s', v')) :
    List.Pairwise notReducible l' := by
  obtain ⟨⟨hlv, hnev, hwfv⟩, idx₀, idx, hpass, hcase⟩ := listReduce_inv hrun
  have hv'WF : WFnorm v' := hwfv hvWF
  have hv'ne : v'.vec ≠ [] := hnev hvne
  have hv'len : v'.vec.length = v.vec.length := hlv
  have hoknew : ∀ u ∈ l, dotOk u.vec v'.vec ∧ dotOk v'.vec u.vec := by
    intro u hu
    exact ⟨⟨hnel u hu, (hlen u hu).trans hv'len.symm⟩,
      ⟨hv'ne, hv'len.trans (hlen u hu).symm⟩⟩
  have hokold : ∀ u ∈ l, ∀ w ∈ l, dotOk u.vec w.vec := by
    intro u hu w hw
    exact ⟨hnel u hu, (hlen u hu).trans (hlen w hw).symm⟩
  have holdpairs : ∀ u ∈ l, ∀ w ∈ l, mutualReduced u w → notReducible u w := by
    intro u hu w hw hm
    exact notReducible_of_mutual (hWF u hu) (hWF w hw) (hokold u hu w hw)
      (hokold w hw u hu) hm
  obtain ⟨-, hdisj⟩ := scanPass_false hpass
  rcases hcase with ⟨-, hl', -⟩ | ⟨nv, kept, moved, hn2, hnz2, ht, hl', -⟩
  · rw [hl']
    exact hpair.imp_of_mem fun {a b} ha hb hm => holdpairs a ha b hb hm
  · obtain ⟨hksub, hkred⟩ := tailReduce_facts ht
    have hkmem : ∀ w ∈ kept, w ∈ l := fun w hw =>
      List.mem_of_mem_drop (hksub.mem hw)
    have htmem : ∀ u ∈ l.take idx, u ∈ l := fun u hu =>
      List.mem_of_mem_take hu
    -- every element of the prefix is not reducible against the inserted v'
    have hF1 : ∀ u ∈ l.take idx, notReducible u v' := by
      intro u hu
      have hul : u ∈ l := htmem u hu
      have hscan : optGt u.norm v'.norm = false ∧
          gaussReduce v' u = some (v', false) := by
        rcases hdisj with ⟨pre, x, post, hl, hidx, hx, hpre⟩ | ⟨-, hall⟩
        · have hidx' : idx = pre.length := by omega
          rw [hl, hidx', List.take_left] at hu
          exact hpre u hu
        · exact hall u hul
      have hb1 : 2 * |dotZ v'.vec u.vec| ≤ dotZ u.vec u.vec :=
        bound_of_scan_false (hWF u hul) hscan.2
      have hb2 : dotZ u.vec u.vec ≤ dotZ v'.vec v'.vec :=
        optGt_WF_false (hWF u hul) hv'WF hscan.1
      refine ⟨?_, hscan.2⟩
      refine nonred_of_bound hv'WF (hoknew u hul).1 ?_
      rw [dotZ_comm u.vec v'.vec]
      omega
    -- the inserted v' is not reducible against any kept successor
    have hF2 : ∀ w ∈ kept, notReducible v' w := by
      intro w hw
      have hwl : w ∈ l := hkmem w hw
      refine ⟨?_, hkred w hw⟩
      rcases hdisj with ⟨pre, x, post, hl, hidx, hx, hpre⟩ | ⟨-, hall⟩
      · have hidx' : idx = pre.length := by omega
        have hdrop : l.drop idx = x :: post := by
          rw [hl, hidx', List.drop_left]
        have hwxp : w ∈ x :: post := by
          rw [← hdrop]
          exact hksub.mem hw
        have hxl : x ∈ l := by
          rw [hl]
          exact List.mem_append_right _ (List.mem_cons_self x post)
        have hxw : normLe x w := by
          rw [List.mem_cons] at hwxp
          rcases hwxp with hwx | hwp
          · rw [hwx]; exact normLe_refl x
          · rw [hl] at hsorted
            have hsorted' : List.Pairwise normLe (pre ++ x :: post) := hsorted
            rw [List.pairwise_append] at hsorted'
            exact (List.pairwise_cons.mp hsorted'.2.1).1 w hwp
        have hb1 : 2 * |dotZ w.vec v'.vec| ≤ dotZ v'.vec v'.vec :=
          bound_of_scan_false hv'WF (hkred w hw)
        have hb2 : dotZ v'.vec v'.vec < dotZ x.vec x.vec :=
          optGt_WF_true (hWF x hxl) hv'WF hx
        have hb3 : dotZ x.vec x.vec ≤ dotZ w.vec w.vec :=
          normLe_WF (hWF x hxl) (hWF w hwl) hxw
        refine nonred_of_bound (hWF w hwl) (hoknew w hwl).2 ?_
        rw [dotZ_comm v'.vec w.vec]
        omega
      · exact (hall w hwl).2
    -- cross mutual reduction between prefix and kept elements
    have hF5 : ∀ u ∈ l.take idx, ∀ w ∈ kept, notReducible u w := by
      intro u hu w hw
      have hpw : List.Pairwise mutualReduced (l.take idx ++ l.drop idx) := by
        rw [List.take_append_drop]
        exact hpair
      rw [List.pairwise_append] at hpw
      exact holdpairs u (htmem u hu) w (hkmem w hw)
        (hpw.2.2 u hu w (hksub.mem hw))
    rw [hl']
    show List.Pairwise notReducible (l.take idx ++ v' :: kept)
    rw [List.pairwise_append]
    refine ⟨?_, ?_, ?_⟩
    · refine (hpair.sublist (List.take_sublist idx l)).imp_of_mem ?_
      intro a b ha hb hm
      exact holdpairs a (htmem a ha) b (htmem b hb) hm
    · rw [List.pairwise_cons]
      refine ⟨hF2, ?_⟩
      refine ((hpair.sublist (List.drop_sublist idx l)).sublist hksub).imp_of_mem ?_
      intro a b ha hb hm
      exact holdpairs a (hkmem a ha) b (hkmem b hb) hm
    · intro u hu y hy
      rw [List.mem_cons] at hy
      rcases hy with hy | hy
      · rw [hy]
        exact hF1 u hu
      · exact hF5 u hu y hy

/-- C4, witness for the amended theorem: the sorted, orthogonal, norm-correct
list `[([1,0,0],1), ([0,2,0],4)]` with `v = ([0,0,3],9)`: after `reduce`,
every pair of the resulting list is non-reducible in both directions. -/
theorem list_reduce_pairwise_witness :
    List.Pairwise notReducible
      [⟨[0, 0, 3], some 9⟩, ⟨[1, 0, 0], some 1⟩, ⟨[0, 2, 0], some 4⟩] :=
  list_reduce_pairwise 5 [⟨[1, 0, 0], some 1⟩, ⟨[0, 2, 0], some 4⟩] []
    ⟨[0, 0, 3], some 9⟩
    [⟨[0, 0, 3], some 9⟩, ⟨[1, 0, 0], some 1⟩, ⟨[0, 2, 0], some 4⟩] []
    ⟨[0, 0, 3], some 9⟩ (by decide) (by decide) (by decide) (by decide)
    (by decide) (by decide) (by decide) (by decide)

/-! The sieve's output: the C2 development. -/

theorem latMul_WF {b : Lattice ℤ} {c r : Vec ℤ} (h : latMul b c = some r) :
    WFnorm r := by
  obtain ⟨-, xs, n, -, hn, hrr⟩ := latMul_some_iff.mp h
  subst hrr
  have hok : dotOk xs xs := by
    by_contra hno
    simp [dotP, hno] at hn
  simp only [dotP, if_pos hok, Option.some.injEq] at hn
  unfold WFnorm
  simp [← hn]

theorem resolveAll_WF {b : Lattice ℤ} :
    ∀ {l res : List (Vec ℤ)}, resolveAll b l = some res →
      ∀ r ∈ res, WFnorm r := by
  intro l
  induction l with
  | nil =>
    intro res h
    unfold resolveAll at h
    simp only [Option.some.injEq] at h
    subst h
    simp
  | cons u rest ih =>
    intro res h
    unfold resolveAll at h
    cases hm : latMul b u with
    | none => rw [hm] at h; exact absurd h (by simp)
    | some r =>
      rw [hm] at h
      cases hr : resolveAll b rest with
      | none => rw [hr] at h; exact absurd h (by simp)
      | some rs =>
        rw [hr] at h
        simp only [Option.some.injEq] at h
        subst h
        intro x hx
        rw [List.mem_cons] at hx
        rcases hx with hx | hx
        · subst hx
          exact latMul_WF hm
        · exact ih hr x hx

theorem sieveLoop_sorted {b : Lattice ℤ} :
    ∀ {fuel : ℕ} {stream l s : List (Vec ℤ)} {c ml : ℕ} {mn : Option ℤ}
      {res : List (Vec ℤ)},
      sieveLoop b fuel stream l s c ml mn = some res →
      List.Sorted normLe res ∧ ∀ r ∈ res, WFnorm r := by
  intro fuel
  induction fuel with
  | zero =>
    intro stream l s c ml mn res h
    exact absurd h (by simp [sieveLoop])
  | succ fuel ih =>
    intro stream l s c ml mn res h
    unfold sieveLoop at h
    by_cases hcond : 10 * c < ml + 2000
    · rw [if_pos hcond] at h
      cases hpop : popNext stream s with
      | none => rw [hpop] at h; exact absurd h (by simp)
      | some t =>
        obtain ⟨v, s₁, stream₁⟩ := t
        rw [hpop] at h
        dsimp only at h
        cases hlr : listReduce (fuel + 1) l s₁ v with
        | none => rw [hlr] at h; exact absurd h (by simp)
        | some t2 =>
          obtain ⟨l₁, s₂, v₁⟩ := t2
          rw [hlr] at h
          dsimp only at h
          cases hn : v₁.norm with
          | none => simp only [hn] at h; exact absurd h (by simp)
          | some nv =>
            simp only [hn] at h
            exact ih h
    · rw [if_neg hcond] at h
      cases hres : resolveAll b l with
      | none => rw [hres] at h; exact absurd h (by simp)
      | some res0 =>
        rw [hres] at h
        simp only [Option.some.injEq] at h
        subst h
        refine ⟨List.sorted_insertionSort normLe res0, ?_⟩
        intro r hr
        have : r ∈ res0 := (List.perm_insertionSort normLe res0).mem_iff.mp hr
        exact resolveAll_WF hres r this

/-- C2, counterexample.  On the basis `[[2,1],[0,1]]` with a sampler stream
of copies of `([0,1], 1)`, the sieve terminates and returns
`[([1,1],2), ([4,0],16)]` — each entry being `basis · l[i]` for a final
list element.  The pair violates the 60-degree property:
`2·|⟨(1,1),(4,0)⟩| = 8 > 2 = min(2,16)`; moreover `(1,1)` is not an integer
combination of the basis rows `(2,1)` and `(0,1)` (its first coordinate is
odd while every combination `a·(2,1)+b·(0,1)` has even first coordinate),
so the claim is false as stated. -/
theorem sieve_sixty_degree_counterexample :
    sieve ⟨[⟨[2, 1], some 5⟩, ⟨[0, 1], some 1⟩]⟩
        (List.replicate 210 ⟨[0, 1], some 1⟩) 500 =
      some [⟨[1, 1], some 2⟩, ⟨[4, 0], some 16⟩] ∧
    ¬ 2 * |dotZ [1, 1] [4, 0]| ≤ min 2 16 := by
  constructor
  · decide
  · decide

/-- C2, amended.  Whenever `sieve()` returns, the result is sorted ascending
by cached norm, and every entry's cached norm equals its squared norm (each
entry being the basis-product `basis · l[i]` of a final list element).  The
integer-combination and 60-degree properties of the final list do NOT
transfer to the returned entries, because of the final re-multiplication by
the basis. -/
theorem sieve_output_sorted (b : Lattice ℤ) (stream : List (Vec ℤ))
    (fuel : ℕ) (res : List (Vec ℤ)) (h : sieve b stream fuel = some res) :
    List.Sorted normLe res ∧ ∀ r ∈ res, WFnorm r := by
  unfold sieve at h
  cases hb : b.basis with
  | nil => rw [hb] at h; exact absurd h (by simp)
  | cons b0 rest =>
    rw [hb] at h
    exact sieveLoop_sorted h

/-- C2, witness for the amended theorem: a full sieve run on the
1-dimensional lattice `[[1]]` with a stream of copies of `([1],1)`. -/
theorem sieve_output_sorted_witness :
    List.Sorted normLe [(⟨[1], some 1⟩ : Vec ℤ)] ∧
    ∀ r ∈ [(⟨[1], some 1⟩ : Vec ℤ)], WFnorm r :=
  sieve_output_sorted ⟨[⟨[1], some 1⟩]⟩ (List.replicate 205 ⟨[1], some 1⟩)
    500 [⟨[1], some 1⟩] (by decide)

end SVP
